import Mathlib

/-!
# dngconvert: sensor geometry, calibration, defect list and original-file embedding

A shallow embedding of the parts of `src/dngconvert/dngconvert.cpp` (`main`) and
`src/dngconvert/librawimage.cpp` (`LibRawImage::LibRawImage`) that decide the
mosaic classification, the geometry, the calibration values, the dead pixel list
and the embedded original block, followed by theorems about them.

Conventions of the embedding:
* C unsigned 32-bit values are `Nat`, reduced `% 2^32` where the source can wrap;
* C `int` values are `Int`;
* C strings are `List Char` that end at their first NUL character;
* `float`/`double` values are exact rationals (`ℚ`);
* calls into LibRaw, the DNG SDK, zlib and the C library are modelled by the
  documented behaviour of the called function, named after it.
-/

namespace DngConvert

/-! ## C library helpers -/

/-- The NUL character that terminates a C string. -/
def NUL : Char := Char.ofNat 0

/-- The memory of a C string: its characters up to the first NUL, then the NUL. -/
def cstr (s : List Char) : List Char := s.takeWhile (fun c => c != NUL) ++ [NUL]

/-- The characters of a C string (what `strlen` counts). -/
def cchars (s : List Char) : List Char := s.takeWhile (fun c => c != NUL)

/-- C `memcmp(a, b, n)`: compares the first `n` bytes, stopping at the first
difference. `none` when a byte past the end of one of the two objects would be
read. -/
def memcmp : List Char → List Char → Nat → Option Int
  | _, _, 0 => some 0
  | a :: as, b :: bs, n + 1 =>
      if a = b then memcmp as bs n else some (if a.toNat < b.toNat then -1 else 1)
  | _, _, _ + 1 => none

/-- C conversion to `uint32`. -/
def u32 (n : Int) : Nat := (n % 4294967296).toNat

/-! ## DNG SDK value types used by the program -/

/-- DNG SDK `dng_rect`: top, left, bottom, right as `int32`. -/
structure dng_rect where
  t : Int
  l : Int
  b : Int
  r : Int
  deriving DecidableEq, Repr

/-- DNG SDK `dng_rect::W()`: `r >= l ? (uint32)(r - l) : 0`. -/
def dng_rect.W (a : dng_rect) : Nat := if a.r ≥ a.l then u32 (a.r - a.l) else 0

/-- DNG SDK `dng_rect::H()`: `b >= t ? (uint32)(b - t) : 0`. -/
def dng_rect.H (a : dng_rect) : Nat := if a.b ≥ a.t then u32 (a.b - a.t) else 0

/-- DNG SDK two-argument constructor `dng_rect(h, w)`: `t = l = 0, b = h, r = w`. -/
def dng_rect.ofSize (h w : Int) : dng_rect := ⟨0, 0, h, w⟩

/-! ## Mosaic classification (`main`, dngconvert.cpp 206-234) -/

/-- The mosaic setter `main` calls on the negative, if any. -/
inductive MosaicClassification
  | None
  | Bayer (phase : Nat)
  | QuadColor (filters : Nat)
  | FujiDiagonal (phase : Nat)
  deriving DecidableEq, Repr

/-- The literal `"FUJIFILM"` of the source. -/
def FUJIFILM : List Char := "FUJIFILM".toList

/-- The `switch (imgdata.idata.filters)` of `main`, starting from
`bayerPhase = 0xFFFFFFFF`. -/
def bayerPhaseOf (filters : Nat) : Nat :=
  if filters = 0xe1e1e1e1 then 0
  else if filters = 0xb4b4b4b4 then 1
  else if filters = 0x1e1e1e1e then 2
  else if filters = 0x4b4b4b4b then 3
  else 0xFFFFFFFF

/-- State left by the classification block of `main`: the local `bayerPhase` and
the mosaic set on the negative. -/
structure MosaicState where
  bayerPhase : Nat
  mosaic : MosaicClassification
  deriving DecidableEq, Repr

/-- Lines 206-234 of `main`. `ptrBytes` is `sizeof(const char*)` of the build
(the source takes `sizeof(rawImage->MakeName().Get())`, a pointer), `channels` is
`rawImage->Channels()`, `makeName` is `rawImage->MakeName()`, `filters` is
`imgdata.idata.filters`. `none` when `memcmp` would read past an object. -/
def classifyMosaic (ptrBytes channels : Nat) (makeName : List Char) (filters : Nat) :
    Option MosaicState :=
  if channels = 4 then
    some ⟨0xFFFFFFFF, MosaicClassification.QuadColor filters⟩
  else
    match memcmp (cstr FUJIFILM) (cstr makeName) (min 8 ptrBytes) with
    | none => none
    | some c =>
      if c = 0 then
        some ⟨0xFFFFFFFF, MosaicClassification.FujiDiagonal 0⟩
      else
        let bayerPhase := bayerPhaseOf filters
        if bayerPhase ≠ 0xFFFFFFFF then
          some ⟨bayerPhase, MosaicClassification.Bayer bayerPhase⟩
        else
          some ⟨bayerPhase, MosaicClassification.None⟩

/-- The classification as the specification words it: a priority function of
channel count, vendor name and filter code. -/
def specClassify (channels : Nat) (vendor : List Char) (filters : Nat) :
    MosaicClassification :=
  if channels = 4 then MosaicClassification.QuadColor filters
  else if vendor.take 8 = FUJIFILM then MosaicClassification.FujiDiagonal 0
  else if filters = 0xe1e1e1e1 then MosaicClassification.Bayer 0
  else if filters = 0xb4b4b4b4 then MosaicClassification.Bayer 1
  else if filters = 0x1e1e1e1e then MosaicClassification.Bayer 2
  else if filters = 0x4b4b4b4b then MosaicClassification.Bayer 3
  else MosaicClassification.None

/-- The priority function with the vendor test on the first `n` characters of the
vendor name only; `specClassify` is the case `n = 8`. -/
def classifyPrefix (n channels : Nat) (vendor : List Char) (filters : Nat) :
    MosaicClassification :=
  if channels = 4 then MosaicClassification.QuadColor filters
  else if vendor.take n = FUJIFILM.take n then MosaicClassification.FujiDiagonal 0
  else if filters = 0xe1e1e1e1 then MosaicClassification.Bayer 0
  else if filters = 0xb4b4b4b4 then MosaicClassification.Bayer 1
  else if filters = 0x1e1e1e1e then MosaicClassification.Bayer 2
  else if filters = 0x4b4b4b4b then MosaicClassification.Bayer 3
  else MosaicClassification.None

/-! ## Default crop (`main`, dngconvert.cpp 158-167) -/

/-- The default crop handed to the negative: origin and size, each (h, v). -/
structure DefaultCrop where
  originH : Nat
  originV : Nat
  sizeH : Nat
  sizeV : Nat
  deriving DecidableEq, Repr

/-- Lines 158-167 of `main`: `SetDefaultCropOrigin` / `SetDefaultCropSize`, the
sizes computed in `uint32`. -/
def defaultCrop (filters : Nat) (activeArea : dng_rect) : DefaultCrop :=
  if filters ≠ 0 then
    ⟨8, 8, u32 ((activeArea.W : Int) - 16), u32 ((activeArea.H : Int) - 16)⟩
  else
    ⟨0, 0, activeArea.W, activeArea.H⟩

/-! ## Original-file embedding (`main`, dngconvert.cpp 415-490) -/

/-- The source's `#define CHUNK 65536`. -/
def CHUNK : Nat := 65536

/-- C `uint32` arithmetic on naturals: reduction modulo 2^32. -/
def wrap32 (n : Nat) : Nat := n % 4294967296

/-- The four bytes `dng_stream::Put_uint32` writes on a big-endian stream. -/
def be32 (v : Nat) : List Nat :=
  [v / 16777216 % 256, v / 65536 % 256, v / 256 % 256, v % 256]

/-- DNG SDK `dng_memory_stream`: the bytes written so far and the write position. -/
structure dng_memory_stream where
  data : List Nat
  pos : Nat
  deriving DecidableEq, Repr

/-- DNG SDK `dng_stream::SetWritePosition`. -/
def dng_memory_stream.SetWritePosition (s : dng_memory_stream) (p : Nat) :
    dng_memory_stream :=
  { s with pos := p }

/-- DNG SDK `dng_stream::Put`: overwrites from the write position on, growing the
stream when the end is passed, and advances the position. -/
def dng_memory_stream.Put (s : dng_memory_stream) (d : List Nat) : dng_memory_stream :=
  { data := s.data.take s.pos ++ List.replicate (s.pos - s.data.length) 0 ++ d
      ++ s.data.drop (s.pos + d.length),
    pos := s.pos + d.length }

/-- DNG SDK `dng_stream::Put_uint32` on a stream set big-endian. -/
def dng_memory_stream.Put_uint32 (s : dng_memory_stream) (v : Nat) : dng_memory_stream :=
  s.Put (be32 v)

/-- The first loop of the embedding: `forkBlocks` times `Put_uint32(0)`. -/
def putZeroWords : Nat → dng_memory_stream → dng_memory_stream
  | 0, s => s
  | n + 1, s => putZeroWords n (s.Put_uint32 0)

/-- zlib `Z_OK`. -/
def Z_OK : Int := 0

/-- How the chunk loop ends: it runs to its end or to its `break` with the stream
and the running offset, `main` returns the status of a failed `deflateInit`, or
`assert(ret == Z_STREAM_END)` fails. -/
inductive LoopExit
  | done (s : dng_memory_stream) (offset : Nat)
  | returns (ret : Int)
  | assertFails
  deriving DecidableEq, Repr

/-- The chunk loop `for (block = 0; block < forkBlocks; block++)`, with `n` the
iterations left, `rest` the unread part of the original file and `offset` the
`uint32` running offset. `deflateInit block` is what zlib's `deflateInit` returns
in iteration `block`; `deflate` gives the complete zlib stream of one input chunk,
which `deflate(&zstrm, Z_FINISH)` leaves in `outBuffer` and ends with
`Z_STREAM_END` only when it fits the `CHUNK * 2` bytes of that buffer (the
assertion is taken as compiled in). -/
def embedLoop (deflateInit : Nat → Int) (deflate : List Nat → List Nat) :
    Nat → Nat → List Nat → Nat → dng_memory_stream → LoopExit
  | 0, _, _, offset, s => LoopExit.done s offset
  | n + 1, block, rest, offset, s =>
    if deflateInit block ≠ Z_OK then LoopExit.returns (deflateInit block)
    else if (rest.take CHUNK).length = 0 then LoopExit.done s offset
    else if CHUNK * 2 < (deflate (rest.take CHUNK)).length then LoopExit.assertFails
    else
      let s1 := (s.SetWritePosition offset).Put (deflate (rest.take CHUNK))
      let offset1 := wrap32 (offset + (deflate (rest.take CHUNK)).length)
      let s2 := (s1.SetWritePosition ((2 + block) * 4)).Put_uint32 offset1
      embedLoop deflateInit deflate n (block + 1) (rest.drop CHUNK) offset1 s2

/-- How the embedding part of `main` ends: with the block handed to
`SetOriginalRawFileData`, with `return ret`, or in a failed assertion. -/
inductive EmbedExit
  | block (data : List Nat)
  | returns (ret : Int)
  | assertFails
  deriving DecidableEq, Repr

/-- The embedding part of `main` (lines 415-490) for the original file `original`.
The block is allocated with `host.Allocate(embedDataStream.Length())` and filled
with `Get(block->Buffer(), embedDataStream.Length())`, both of which take the
64-bit stream length as a `uint32`: the block holds the first
`Length() mod 2^32` bytes of the stream. -/
def embedOriginal (deflateInit : Nat → Int) (deflate : List Nat → List Nat)
    (original : List Nat) : EmbedExit :=
  let forkLength := wrap32 original.length
  let forkBlocks := wrap32 ((forkLength + 65535) / 65536)
  let s0 := (dng_memory_stream.mk [] 0).Put_uint32 forkLength
  let offset := wrap32 ((2 + forkBlocks) * 4)
  let s1 := s0.Put_uint32 offset
  let s2 := putZeroWords forkBlocks s1
  match embedLoop deflateInit deflate forkBlocks 0 original offset s2 with
  | LoopExit.returns ret => EmbedExit.returns ret
  | LoopExit.assertFails => EmbedExit.assertFails
  | LoopExit.done s offset1 =>
    let s3 := s.SetWritePosition offset1
    let s4 := ((((((s3.Put_uint32 0).Put_uint32 0).Put_uint32 0).Put_uint32 0).Put_uint32
      0).Put_uint32 0).Put_uint32 0
    EmbedExit.block (s4.data.take (wrap32 s4.data.length))

/-! ### The block layout and its reader, as the specification words them -/

/-- The first `n` chunks of 65536 bytes of `data` (the last may be shorter). -/
def chunkList : Nat → List Nat → List (List Nat)
  | 0, _ => []
  | n + 1, data => data.take CHUNK :: chunkList n (data.drop CHUNK)

/-- Number of chunks of an input of length `len`: `ceil(len / 65536)`. -/
def chunkCount (len : Nat) : Nat := (len + 65535) / 65536

/-- Running sums `start + l_0`, `start + l_0 + l_1`, ... of a list of lengths. -/
def cumulative : Nat → List Nat → List Nat
  | _, [] => []
  | start, l :: ls => (start + l) :: cumulative (start + l) ls

/-- The compressed forms `c_0 .. c_{N-1}` of the chunks of `data`. -/
def compressedChunks (deflate : List Nat → List Nat) (data : List Nat) : List (List Nat) :=
  (chunkList (chunkCount data.length) data).map deflate

/-- The directory entries: the cumulative offset just after each chunk. -/
def directory (deflate : List Nat → List Nat) (data : List Nat) : List Nat :=
  cumulative (4 * (2 + chunkCount data.length))
    ((compressedChunks deflate data).map List.length)

/-- The embedded block as the specification lays it out: length word, directory
offset word, directory, compressed chunks, seven zero words. -/
def specBlock (deflate : List Nat → List Nat) (data : List Nat) : List Nat :=
  be32 data.length ++ be32 (4 * (2 + chunkCount data.length))
    ++ (directory deflate data).flatMap be32
    ++ (compressedChunks deflate data).flatten
    ++ List.replicate 28 0

/-- Total size of the directory region and the compressed chunks. -/
def payloadEnd (deflate : List Nat → List Nat) (data : List Nat) : Nat :=
  4 * (2 + chunkCount data.length) + ((compressedChunks deflate data).map List.length).sum

/-- Big-endian `uint32` read at byte `i` of a block. -/
def readBE32 (b : List Nat) (i : Nat) : Nat :=
  ((b.getD i 0 * 256 + b.getD (i + 1) 0) * 256 + b.getD (i + 2) 0) * 256 + b.getD (i + 3) 0

/-- Chunk `k` of a block read through its directory: the bytes from the previous
cumulative offset (word 1 for `k = 0`) up to directory entry `k`. -/
def extractChunk (b : List Nat) (k : Nat) : List Nat :=
  (b.drop (readBE32 b (4 * (1 + k)))).take
    (readBE32 b (4 * (2 + k)) - readBE32 b (4 * (1 + k)))

/-- Decoding of a block: every chunk of the directory decompressed on its own,
concatenated in order. -/
def extractOriginal (inflate : List Nat → List Nat) (b : List Nat) : List Nat :=
  ((List.range (chunkCount (readBE32 b 0))).map (fun k => inflate (extractChunk b k))).flatten

/-! ### A compressor of the zlib format and a large input -/

/-- The Adler-32 checksum that ends a zlib stream. -/
def adler32 (d : List Nat) : Nat :=
  (d.foldl (fun (ab : Nat × Nat) x =>
      ((ab.1 + x) % 65521, (ab.2 + (ab.1 + x) % 65521) % 65521)) (1, 0)).2 * 65536
    + (d.foldl (fun (ab : Nat × Nat) x =>
      ((ab.1 + x) % 65521, (ab.2 + (ab.1 + x) % 65521) % 65521)) (1, 0)).1

/-- One stored block of the deflate format for at most 65535 bytes `d`: the
header byte (bit 0 set on the final block), the length and its complement as
little-endian 16-bit values, then the bytes. -/
def storedBlock (final : Bool) (d : List Nat) : List Nat :=
  [if final then 1 else 0, d.length % 256, d.length / 256,
    255 - d.length % 256, 255 - d.length / 256] ++ d

/-- A compressor that writes the zlib format with stored blocks only, the form
`deflate` of zlib writes at level 0 and, with a few more bytes of framing, for
bytes it cannot shorten at any level: the two header bytes, one stored block
for up to 65535 bytes and two for more, and the Adler-32 checksum. A chunk of
`n ≤ CHUNK` bytes takes `n + 11` or `n + 16` bytes, well inside `outBuffer`. -/
def storedDeflate (c : List Nat) : List Nat :=
  [120, 1]
    ++ (if c.length ≤ 65535 then storedBlock true c
        else storedBlock false (c.take 65535) ++ storedBlock true (c.drop 65535))
    ++ be32 (adler32 c)

/-- The bytes of up to `n` stored blocks, up to the final one. -/
def storedBlocks : Nat → List Nat → List Nat
  | 0, _ => []
  | n + 1, f :: lo :: hi :: _ :: _ :: t =>
    t.take (lo + 256 * hi)
      ++ (if f % 2 = 1 then [] else storedBlocks n (t.drop (lo + 256 * hi)))
  | _ + 1, _ => []

/-- The decompressor of `storedDeflate`: the bytes of the stored blocks that
follow the two header bytes. -/
def storedInflate (z : List Nat) : List Nat := storedBlocks 2 (z.drop 2)

/-- Byte `i` of a pseudo-random sequence (the splitmix64 generator): bytes of the
kind deflate cannot shorten. -/
def noiseByte (i : Nat) : Nat :=
  let z0 := (i + 1) * 11400714819323198485 % 18446744073709551616
  let z1 := (z0 ^^^ (z0 / 1073741824)) * 13787848793156543929 % 18446744073709551616
  let z2 := (z1 ^^^ (z1 / 134217728)) * 10723151780598845931 % 18446744073709551616
  (z2 ^^^ (z2 / 2147483648)) % 256

/-- An original file of 4293656925 pseudo-random bytes: 65516 full chunks and a
last chunk of 349 bytes. -/
def noiseOriginal : List Nat := (List.range 4293656925).map noiseByte

/-- A generated input of 150000 bytes. -/
def sample150000 : List Nat := List.replicate 150000 7

/-! ## Dead pixel list (`main`, dngconvert.cpp 313-354) -/

/-- DNG SDK `dng_point(v, h)`: vertical then horizontal coordinate. -/
structure dng_point where
  v : Int
  h : Int
  deriving DecidableEq, Repr

/-- The newline character. -/
def NL : Char := Char.ofNat 10

/-- C `isspace` in the C locale: blank, tab, newline, vertical tab, form feed,
carriage return. -/
def isspace (c : Char) : Bool := c.toNat = 32 || (9 ≤ c.toNat && c.toNat ≤ 13)

/-- C `isdigit`. -/
def isdigit (c : Char) : Bool := 48 ≤ c.toNat && c.toNat ≤ 57

/-- The value an `int` object holds after the `long` value `v` is stored in it, as
glibc does for `%d`: the low 32 bits, two's complement. -/
def toInt32 (v : Int) : Int := (v + 2147483648) % 4294967296 - 2147483648

/-- glibc `strtol` on a 64-bit `long`, which glibc converts the digits of a `%d`
directive with: a value above `LONG_MAX` gives `LONG_MAX` and a value below
`LONG_MIN` gives `LONG_MIN`. -/
def strtolValue (v : Int) : Int :=
  if 9223372036854775807 < v then 9223372036854775807
  else if v < -9223372036854775808 then -9223372036854775808
  else v

/-- Decimal value of a run of digits. -/
def digitsValue (ds : List Char) : Nat :=
  ds.foldl (fun acc c => 10 * acc + (c.toNat - 48)) 0

/-- Outcome of one `%d` directive of `sscanf`. -/
inductive ScanResult
  | inputFailure
  | matchingFailure
  | converted (value : Int) (rest : List Char)
  deriving DecidableEq, Repr

/-- The characters a `%d` directive reads digits from, after the optional sign
`c` has been taken off the input `c :: t`. -/
def signBody (c : Char) (t : List Char) : List Char :=
  if c = '-' ∨ c = '+' then t else c :: t

/-- The integer that the first character `c` of a numeral (a sign or its first
digit) and the digits `ds` of the numeral denote. -/
def numeralValue (c : Char) (ds : List Char) : Int :=
  if c = '-' then -(digitsValue ds : Int) else (digitsValue ds : Int)

/-- A `%d` directive at the first character `c` that is not white space: an
optional sign, then a non-empty run of decimal digits, converted by `strtol` and
stored in an `int`. -/
def scanNumber (c : Char) (t : List Char) : ScanResult :=
  if (signBody c t).takeWhile isdigit = [] then ScanResult.matchingFailure
  else
    ScanResult.converted
      (toInt32 (strtolValue (numeralValue c ((signBody c t).takeWhile isdigit))))
      ((signBody c t).dropWhile isdigit)

/-- One `%d` directive of `sscanf`: skip white space, then scan a number; an
input failure when the string ends first. -/
def scanInt (s : List Char) : ScanResult :=
  match s.dropWhile isspace with
  | [] => ScanResult.inputFailure
  | c :: t => scanNumber c t

/-- The locals `col`, `row`, `time` of `main`, declared outside the read loop. -/
structure ScanVars where
  col : Int
  row : Int
  time : Int
  deriving DecidableEq, Repr

/-- C `sscanf(line, "%d %d %d", &col, &row, &time)`: the return value (-1 is
`EOF`) and the variables after the call; a variable whose directive is not
reached keeps its old value. The blanks of the format skip white space, which
`%d` skips anyway. -/
def sscanf_d_d_d (s : List Char) (vars : ScanVars) : Int × ScanVars :=
  match scanInt s with
  | ScanResult.inputFailure => (-1, vars)
  | ScanResult.matchingFailure => (0, vars)
  | ScanResult.converted c r1 =>
    match scanInt r1 with
    | ScanResult.converted r r2 =>
      match scanInt r2 with
      | ScanResult.converted t _ => (3, ⟨c, r, t⟩)
      | _ => (2, ⟨c, r, vars.time⟩)
    | _ => (1, ⟨c, vars.row, vars.time⟩)

/-- The body of the read loop for one buffer `line` filled by `fgets`:
`strchr(line, '#')` cuts the C string at the first `#`, `sscanf` scans it, and a
point `dng_point(row, col)` is added unless fewer than two integers were scanned
or `(unsigned) col >= width` or `(unsigned) row >= height`. Returns the points
added and the variables. -/
def deadPixelStep (width height : Nat) (line : List Char) (vars : ScanVars) :
    List dng_point × ScanVars :=
  let text := (cchars line).takeWhile (fun c => c != '#')
  let r := sscanf_d_d_d text vars
  if r.1 < 2 then ([], r.2)
  else if u32 r.2.col ≥ width ∨ u32 r.2.row ≥ height then ([], r.2)
  else ([⟨r.2.row, r.2.col⟩], r.2)

/-- The characters `fgets` stores when at most `n` may be read: up to and
including the first newline. Returns them and the unread rest of the file. -/
def fgetsChars : Nat → List Char → List Char × List Char
  | 0, file => ([], file)
  | _ + 1, [] => ([], [])
  | n + 1, c :: file =>
    if c = NL then ([c], file)
    else ((c :: (fgetsChars n file).1), (fgetsChars n file).2)

/-- C `fgets(line, size, fp)`: `none` at end of file, else the characters read
(at most `size - 1`) and the unread rest. -/
def fgets (size : Nat) (file : List Char) : Option (List Char × List Char) :=
  if file = [] then none else some (fgetsChars (size - 1) file)

/-- The loop `while (fgets (line, 128, fp))` with `fuel` iterations allowed. -/
def readDeadPixels (width height : Nat) : Nat → List Char → ScanVars → List dng_point
  | 0, _, _ => []
  | fuel + 1, file, vars =>
    match fgets 128 file with
    | none => []
    | some (line, rest) =>
      (deadPixelStep width height line vars).1
        ++ readDeadPixels width height fuel rest (deadPixelStep width height line vars).2

/-- The points of the bad pixel list built from the dead pixel file `file`; every
`fgets` that returns a line consumes a character, so `file.length + 1`
iterations reach the end of the file. -/
def deadPixelList (width height : Nat) (file : List Char) (vars : ScanVars) : List dng_point :=
  readDeadPixels width height (file.length + 1) file vars

/-- The values that up to `n` successive `%d` directives convert from a text, as
the `int` objects hold them. -/
def scannedInts : Nat → List Char → List Int
  | 0, _ => []
  | n + 1, s =>
    match scanInt s with
    | ScanResult.converted v rest => v :: scannedInts n rest
    | _ => []

/-! ### The defect list as the specification words it -/

/-- The integer numeral a text starts with, white space skipped and an optional
sign allowed: its exact value, whatever its size, and the rest of the text. -/
def leadingInt (s : List Char) : Option (Int × List Char) :=
  match s.dropWhile isspace with
  | [] => none
  | c :: t =>
    if (signBody c t).takeWhile isdigit = [] then none
    else some (numeralValue c ((signBody c t).takeWhile isdigit),
      (signBody c t).dropWhile isdigit)

/-- The leading white-space separated integers of a text, at most `n` of them,
with their exact values. -/
def leadingInts : Nat → List Char → List Int
  | 0, _ => []
  | n + 1, s =>
    match leadingInt s with
    | some (v, rest) => v :: leadingInts n rest
    | none => []

/-- The point of a line whose leading integers are `ints`: `(row, col)` when
`col` and `row` are there and inside the bounds, nothing otherwise. -/
def pointOf (width height : Nat) (ints : List Int) : List dng_point :=
  match ints with
  | col :: row :: _ =>
    if 0 ≤ col ∧ col < width ∧ 0 ≤ row ∧ row < height then [⟨row, col⟩] else []
  | _ => []

/-- The contribution of one text line: drop everything from the first `#`, then
look at the first two leading integers only. -/
def specLine (width height : Nat) (line : List Char) : List dng_point :=
  pointOf width height (leadingInts 2 (line.takeWhile (fun c => c != '#')))

/-- A text file made of the given lines, each ended by a newline. -/
def joinLines (lines : List (List Char)) : List Char :=
  (lines.map (fun l => l ++ [NL])).flatten

/-! ### The dead pixel block and the exit of `main` -/

/-- DNG SDK `dng_opcode_FixBadPixelsList(list, bayerPhase)` as `main` builds it. -/
structure dng_opcode_FixBadPixelsList where
  list : List dng_point
  bayerPhase : Nat
  deriving DecidableEq, Repr

/-- How the dead pixel block of `main` (lines 313-354) ends: `main` goes on with
the opcodes appended to `OpcodeList1`, or it returns with a status. -/
inductive DefectStage
  | proceeds (opcodeList1 : List dng_opcode_FixBadPixelsList)
  | returns (status : Int)
  deriving DecidableEq, Repr

/-- Lines 313-354 of `main`. `deadpixelfile` is `none` without the `-d` option,
`some none` when `fopen` fails and `some (some text)` when the file opens. -/
def deadPixelStage (bayerPhase width height : Nat)
    (deadpixelfile : Option (Option (List Char))) (vars : ScanVars) : DefectStage :=
  match deadpixelfile with
  | none => DefectStage.proceeds []
  | some fp =>
    if bayerPhase ≠ 0xFFFFFFFF then
      match fp with
      | some text =>
        DefectStage.proceeds [⟨deadPixelList width height text vars, bayerPhase⟩]
      | none => DefectStage.returns 1
    else DefectStage.returns 1

/-- Whether `main` reaches `writer.WriteDNG` (line 574), its last statement: a
`return` in the dead pixel block leaves `main` before it. -/
def reachesWriteDNG : DefectStage → Bool
  | DefectStage.proceeds _ => true
  | DefectStage.returns _ => false

/-! ## Geometry (`LibRawImage::LibRawImage`, librawimage.cpp 50-100; `main` 258-277) -/

/-- DNG SDK orientations `main` chooses from. -/
inductive dng_orientation
  | Normal
  | Rotate180
  | Rotate90CCW
  | Rotate90CW
  deriving DecidableEq, Repr

/-- The `switch (imgdata.sizes.flip)` of `main` (lines 258-277). -/
def baseOrientation (flip : Int) : dng_orientation :=
  if flip = 3 then dng_orientation.Rotate180
  else if flip = 5 then dng_orientation.Rotate90CCW
  else if flip = 6 then dng_orientation.Rotate90CW
  else dng_orientation.Normal

/-- `m_FinalSize` (librawimage.cpp 50-57), from `sizes.flip`, `sizes.iwidth` and
`sizes.iheight` as they are read at line 50, that is after the call of
`adjust_sizes_info_only()` at line 42; the two-argument `dng_rect` takes the
height first. -/
def FinalSize (flip : Int) (iwidth iheight : Nat) : dng_rect :=
  if flip = 5 ∨ flip = 6 then dng_rect.ofSize iwidth iheight
  else dng_rect.ofSize iheight iwidth

/-- LibRaw `adjust_sizes_info_only()` (called at librawimage.cpp 42) on the
`sizes.iwidth`, `sizes.iheight` that `open_file` left, for a frame with square
pixels and no Fuji rotation width whose `flip` is an orientation code 0 to 7
(not a rotation angle, which the library would first replace by its code): the
library ends with
`if (S.flip & 4) { t = S.iheight; S.iheight = S.iwidth; S.iwidth = t; }`, so the
two sizes are exchanged exactly when bit 2 of `flip` is set (codes 4 to 7).
The result is the pair (iwidth, iheight) after the call. LibRaw is not part of
the sources; this follows the library. -/
def adjust_sizes_info_only (flip : Int) (iwidth iheight : Nat) : Nat × Nat :=
  if 4 ≤ flip % 8 then (iheight, iwidth) else (iwidth, iheight)

/-- `m_FinalSize` in terms of the raw sizes (librawimage.cpp 34-57): `open_file`
leaves the raw `iwidth`, `iheight`, `adjust_sizes_info_only` adjusts them, and
lines 50-57 build the rectangle from the adjusted pair. -/
def m_FinalSize (flip : Int) (iwidth iheight : Nat) : dng_rect :=
  FinalSize flip (adjust_sizes_info_only flip iwidth iheight).1
    (adjust_sizes_info_only flip iwidth iheight).2

/-- C `strcmp` on the characters of two C strings. -/
def strcmpChars : List Char → List Char → Int
  | [], [] => 0
  | [], _ :: _ => -1
  | _ :: _, [] => 1
  | a :: as, b :: bs =>
    if a = b then strcmpChars as bs else if a.toNat < b.toNat then -1 else 1

/-- C `strcmp`. -/
def strcmp (a b : List Char) : Int := strcmpChars (cchars a) (cchars b)

/-- `m_ActiveArea` (librawimage.cpp 81-100). `top_margin`, `left_margin`,
`iheight`, `iwidth` are read from the LibRaw processor; the bottom and right
margins are read from the member `m_Imgdata`, which is assigned only at line 102:
`m_bottom_margin` and `m_right_margin` are what that member holds before. -/
def ActiveArea (make : List Char) (filters top_margin left_margin iheight iwidth
    m_bottom_margin m_right_margin : Nat) : dng_rect :=
  if strcmp make "Canon".toList = 0 ∧ filters ≠ 0 then
    ⟨top_margin, left_margin, (iheight : Int) - m_bottom_margin, (iwidth : Int) - m_right_margin⟩
  else dng_rect.ofSize iheight iwidth

/-! ## Calibration (`LibRawImage::LibRawImage`, librawimage.cpp 180-240) -/

/-- A finite value of the C type `float` (IEEE binary32), the type of `cam_mul`:
`(-1)^neg * mant * 2^exp`, where a `float` has `mant < 2^24` and
`-149 ≤ exp ≤ 104`. -/
structure real32 where
  neg : Bool
  mant : Nat
  exp : Int
  deriving DecidableEq, Repr

/-- Whether the three fields are those of a `float`. -/
def real32.valid (x : real32) : Prop := x.mant < 16777216 ∧ -149 ≤ x.exp ∧ x.exp ≤ 104

/-- The test of `real32.valid` is decidable. -/
instance real32.decidableValid (x : real32) : Decidable x.valid := by
  unfold real32.valid
  infer_instance

/-- A value of the C type `double` (`real64` in the DNG SDK) as a division leaves
it: a finite number `(-1)^neg * mant * 2^exp` or an infinity. -/
inductive real64
  | finite (neg : Bool) (mant : Nat) (exp : Int)
  | infinity (neg : Bool)
  deriving DecidableEq, Repr

/-- The least `k` with `n ≤ 2^k`, for `n ≤ 2^fuel`. -/
def ceilLog2 : Nat → Nat → Nat
  | 0, _ => 0
  | fuel + 1, n => if n ≤ 1 then 0 else ceilLog2 fuel ((n + 1) / 2) + 1

/-- The integer nearest to `n / d`, the even one of two that are equally near
(the IEEE 754 default rounding). -/
def roundNearestEven (n d : Nat) : Nat :=
  if 2 * (n % d) < d then n / d
  else if d < 2 * (n % d) then n / d + 1
  else if n / d % 2 = 0 then n / d
  else n / d + 1

/-- C `1.0 / x` for a `float` `x` (librawimage.cpp 183): `x` is converted to
`double` without change and the quotient is rounded to the nearest `double`,
whose significand has 53 bits: with `2^(c-1) < mant ≤ 2^c` the quotient
`2^(52+c) / mant` lies between 2^52 and 2^53 and is rounded to an integer. A
division by zero raises nothing and gives the infinity of the sign of the
zero. -/
def reciprocal (x : real32) : real64 :=
  if x.mant = 0 then real64.infinity x.neg
  else
    real64.finite x.neg (roundNearestEven (2 ^ (52 + ceilLog2 24 x.mant)) x.mant)
      (-(52 + ceilLog2 24 x.mant : Nat) - x.exp)

/-- `m_CameraNeutral` (librawimage.cpp 180-184): `dng_vector(colors)` accepts 1 to
4 entries (`kMaxColorPlanes`) and throws otherwise (`none`); entry `i` is
`1.0 / cam_mul[i]`, and no multiplier is tested. -/
def CameraNeutral (colors : Nat) (cam_mul : List real32) : Option (List real64) :=
  if 1 ≤ colors ∧ colors ≤ 4 then
    some ((List.range colors).map (fun i => reciprocal (cam_mul.getD i ⟨false, 0, 0⟩)))
  else none

/-- A call `main` makes on the negative. -/
inductive NegativeCall
  | SetCameraNeutral (n : List real64)
  deriving DecidableEq, Repr

/-- Line 309 of `main`, `negative->SetCameraNeutral(rawImage->CameraNeutral())`,
after the constructor: the accessor (librawimage.cpp 307-310) returns the
member the constructor stored. `none` when the constructor threw. -/
def mainSetCameraNeutral (colors : Nat) (cam_mul : List real32) : Option NegativeCall :=
  match CameraNeutral colors cam_mul with
  | some n => some (NegativeCall.SetCameraNeutral n)
  | none => none

/-- DNG SDK `dng_matrix::MaxEntry`: 0 for an empty matrix, else the largest
entry. -/
def MaxEntry (m : List (List ℚ)) : ℚ :=
  match m.flatten with
  | [] => 0
  | x :: xs => xs.foldl max x

/-- The identity `dng_matrix_3by3(1, 0, 0, 0, 1, 0, 0, 0, 1)`. -/
def identity3by3 : List (List ℚ) := [[1, 0, 0], [0, 1, 0], [0, 0, 1]]

/-- The default `dng_matrix_4by3(0, 0, 0, 1, 0, 0, 0, 1, 0, 0, 0, 1)`. -/
def default4by3 : List (List ℚ) := [[0, 0, 0], [1, 0, 0], [0, 1, 0], [0, 0, 1]]

/-- The first `rows` rows of `cam_xyz` (a `float[4][3]`), as a matrix. -/
def camXYZ (rows : Nat) (cam_xyz : Nat → Nat → ℚ) : List (List ℚ) :=
  (List.range rows).map (fun i => [cam_xyz i 0, cam_xyz i 1, cam_xyz i 2])

/-- `m_ColorMatrix` (librawimage.cpp 191-240): the `switch` on the channel count;
`none` when no case applies and the matrix stays unset. -/
def ColorMatrix (colors : Nat) (cam_xyz : Nat → Nat → ℚ) : Option (List (List ℚ)) :=
  if colors = 3 then
    if MaxEntry (camXYZ 3 cam_xyz) = 0 then some identity3by3 else some (camXYZ 3 cam_xyz)
  else if colors = 4 then
    if MaxEntry (camXYZ 4 cam_xyz) = 0 then some default4by3 else some (camXYZ 4 cam_xyz)
  else none

/-! ## Black and white levels (`main`, dngconvert.cpp 236-252) -/

/-- DNG SDK `dng_negative::GetMosaicInfo()` after the classification block, reduced
to the `fCFAPatternSize` (rows `v`, columns `h`) the setter left: `none` when no
setter was called (a NULL pointer); `SetBayerMosaic` sets 2 × 2, `SetFujiMosaic`
2 × 4, and `SetQuadMosaic(pattern)` 8 × 2, 4 × 2 or 2 × 2 according to how soon
the packed pattern repeats. -/
def GetMosaicInfo (mosaic : MosaicClassification) : Option dng_point :=
  match mosaic with
  | MosaicClassification.None => none
  | MosaicClassification.Bayer _ => some ⟨2, 2⟩
  | MosaicClassification.QuadColor pattern =>
    if pattern / 65536 % 65536 ≠ pattern % 65536 then some ⟨8, 2⟩
    else if pattern / 256 % 256 ≠ pattern % 256 then some ⟨4, 2⟩
    else some ⟨2, 2⟩
  | MosaicClassification.FujiDiagonal _ => some ⟨2, 4⟩

/-- The black level call `main` makes on the negative. -/
inductive BlackLevelCall
  | SetQuadBlacks (black0 black1 black2 black3 : ℚ)
  | SetBlackLevel (black : ℚ) (plane : Int)
  deriving DecidableEq, Repr

/-- Lines 241-252 of `main`: `SetQuadBlacks` of the four channel values when the
mosaic information exists and its pattern size is `dng_point(2, 2)`, else
`SetBlackLevel(BlackLevel(0), 0)`. `BlackLevel` is `rawImage->BlackLevel`. -/
def setBlackLevels (mosaic : MosaicClassification) (BlackLevel : Nat → ℚ) : BlackLevelCall :=
  match GetMosaicInfo mosaic with
  | some fCFAPatternSize =>
    if fCFAPatternSize = ⟨2, 2⟩ then
      BlackLevelCall.SetQuadBlacks (BlackLevel 0) (BlackLevel 1) (BlackLevel 2) (BlackLevel 3)
    else BlackLevelCall.SetBlackLevel (BlackLevel 0) 0
  | none => BlackLevelCall.SetBlackLevel (BlackLevel 0) 0

/-- Lines 236-239 of `main`: the four `SetWhiteLevel(WhiteLevel(i), i)` calls, as
(white, plane) pairs in call order. -/
def setWhiteLevels (WhiteLevel : Nat → ℚ) : List (ℚ × Int) :=
  [(WhiteLevel 0, 0), (WhiteLevel 1, 1), (WhiteLevel 2, 2), (WhiteLevel 3, 3)]

/-! ## Image bounds -/

/-- The test for `fujiRotate90` (librawimage.cpp 104-108): the first 8 bytes of
`make` (a `char[64]`, so `min(8, sizeof make) = 8`) are `FUJIFILM`, and LibRaw's
`COLOR(0, 1)` is 2 and `COLOR(1, 0)` is 1. -/
def fujiRotate90 (make : List Char) (COLOR_0_1 COLOR_1_0 : Int) : Bool :=
  memcmp (cstr FUJIFILM) (cstr make) (min 8 64) = some 0 && COLOR_0_1 = 2 && COLOR_1_0 = 1

/-- The image bounds `fBounds` (librawimage.cpp 104-115), the area of the pixel
buffer: `dng_rect(iheight, iwidth)`, with the two sizes exchanged in `m_Imgdata`
first when `fujiRotate90` holds. -/
def fBounds (make : List Char) (COLOR_0_1 COLOR_1_0 : Int) (iheight iwidth : Nat) : dng_rect :=
  if fujiRotate90 make COLOR_0_1 COLOR_1_0 then dng_rect.ofSize iwidth iheight
  else dng_rect.ofSize iheight iwidth

/-- A rectangle lies inside image bounds: `0 ≤ top ≤ bottom ≤ height` and
`0 ≤ left ≤ right ≤ width`. -/
def insideBounds (a bounds : dng_rect) : Prop :=
  0 ≤ a.t ∧ a.t ≤ a.b ∧ a.b ≤ (bounds.H : Int) ∧ 0 ≤ a.l ∧ a.l ≤ a.r ∧ a.r ≤ (bounds.W : Int)

instance (a bounds : dng_rect) : Decidable (insideBounds a bounds) := by
  unfold insideBounds
  infer_instance

/-- A dead pixel file of one line of 131 characters: `#`, 126 times `x`, then
`3 4`, and the newline. -/
def longCommentFile : List Char := '#' :: (List.replicate 126 'x' ++ "3 4".toList ++ [NL])

/-- The same line with another comment text: `#`, 126 times `x`, then `7 7`. -/
def longCommentFile2 : List Char := '#' :: (List.replicate 126 'x' ++ "7 7".toList ++ [NL])

/-- A `cam_xyz` whose only non-zero entry is -1 at row 1, column 1. -/
def negativeCamXYZ (i j : Nat) : ℚ := if i = 1 ∧ j = 1 then -1 else 0

/-! ## Theorems -/

/-- Helper: `memcmp` of a NUL-free literal against a C string never reads past
either object, and is zero exactly when the first `n` characters agree. -/
theorem memcmp_cstr_aux (n : Nat) : ∀ (lit s : List Char), n ≤ lit.length →
    (∀ c ∈ lit, c ≠ NUL) →
    ∃ r, memcmp (lit ++ [NUL]) (s ++ [NUL]) n = some r ∧
      (r = 0 ↔ s.take n = lit.take n) := by
  induction n with
  | zero => intro lit s _ _; exact ⟨0, by simp [memcmp], by simp⟩
  | succ n ih =>
    intro lit s hlen hnul
    cases lit with
    | nil => simp at hlen
    | cons a lit =>
      have ha : a ≠ NUL := hnul a (by simp)
      cases s with
      | nil =>
        refine ⟨if a.toNat < NUL.toNat then -1 else 1, by simp [memcmp, ha], ?_⟩
        constructor
        · intro h; split at h <;> simp at h
        · intro h; simp at h
      | cons b s =>
        by_cases hab : a = b
        · subst hab
          obtain ⟨r, hr, hiff⟩ := ih lit s (by simpa using hlen)
            (fun c hc => hnul c (by simp [hc]))
          exact ⟨r, by simpa [memcmp] using hr, by simpa using hiff⟩
        · refine ⟨if a.toNat < b.toNat then -1 else 1, by simp [memcmp, hab], ?_⟩
          constructor
          · intro h; split at h <;> simp at h
          · intro h
            simp at h
            exact absurd h.1.symm hab

/-- Helper: the vendor test of `main` compares the first `min 8 ptrBytes`
characters of the vendor name with those of `"FUJIFILM"`. -/
theorem memcmp_FUJIFILM (ptrBytes : Nat) (makeName : List Char) :
    ∃ r, memcmp (cstr FUJIFILM) (cstr makeName) (min 8 ptrBytes) = some r ∧
      (r = 0 ↔ (cchars makeName).take (min 8 ptrBytes) = FUJIFILM.take (min 8 ptrBytes)) := by
  have h := memcmp_cstr_aux (min 8 ptrBytes) FUJIFILM (cchars makeName)
    (by simp [FUJIFILM]) (by decide)
  have e : cstr FUJIFILM = FUJIFILM ++ [NUL] := by decide
  rw [e]
  exact h

/-- Helper: the `switch` on the filter code, as a case list. -/
theorem bayerPhaseOf_cases (filters : Nat) :
    (filters = 0xe1e1e1e1 ∧ bayerPhaseOf filters = 0) ∨
    (filters = 0xb4b4b4b4 ∧ bayerPhaseOf filters = 1) ∨
    (filters = 0x1e1e1e1e ∧ bayerPhaseOf filters = 2) ∨
    (filters = 0x4b4b4b4b ∧ bayerPhaseOf filters = 3) ∨
    (filters ≠ 0xe1e1e1e1 ∧ filters ≠ 0xb4b4b4b4 ∧ filters ≠ 0x1e1e1e1e ∧
      filters ≠ 0x4b4b4b4b ∧ bayerPhaseOf filters = 0xFFFFFFFF) := by
  unfold bayerPhaseOf
  by_cases h0 : filters = 0xe1e1e1e1
  · left; simp [h0]
  by_cases h1 : filters = 0xb4b4b4b4
  · right; left; simp [h1]
  by_cases h2 : filters = 0x1e1e1e1e
  · right; right; left; simp [h2]
  by_cases h3 : filters = 0x4b4b4b4b
  · right; right; right; left; simp [h3]
  · right; right; right; right; simp [h0, h1, h2, h3]

/-- The classification of `main` on every build. For every pointer size, channel
count, vendor name and filter code exactly one variant results, that of the
priority function whose vendor test looks at the first min(8, pointer size)
characters: QuadColor carrying the filter code for 4 channels, else
FujiDiagonal 0 when these characters are those of `FUJIFILM`, else Bayer phase
0, 1, 2, 3 for the four known codes and None for every other code. With 8
characters compared this is the function of the specification. -/
theorem classifyMosaic_prefix (ptrBytes channels filters : Nat) (makeName : List Char) :
    (classifyMosaic ptrBytes channels makeName filters).map MosaicState.mosaic
      = some (classifyPrefix (min 8 ptrBytes) channels (cchars makeName) filters) ∧
    classifyPrefix 8 channels (cchars makeName) filters
      = specClassify channels (cchars makeName) filters := by
  constructor
  · unfold classifyMosaic classifyPrefix
    by_cases hc : channels = 4
    · simp [hc]
    · obtain ⟨r, hr, hiff⟩ := memcmp_FUJIFILM ptrBytes makeName
      simp only [hc, if_false, hr]
      by_cases h0 : r = 0
      · simp [h0, hiff.mp h0]
      · have hne : ¬ (cchars makeName).take (min 8 ptrBytes) = FUJIFILM.take (min 8 ptrBytes) :=
          fun h => h0 (hiff.mpr h)
        simp only [h0, if_false, hne]
        rcases bayerPhaseOf_cases filters with h | h | h | h | h
        · rw [h.2]; simp [h.1]
        · rw [h.2]; simp [h.1]
        · rw [h.2]; simp [h.1]
        · rw [h.2]; simp [h.1]
        · obtain ⟨a, b, c, d, e⟩ := h
          rw [e]; simp [a, b, c, d]
  · have hF : FUJIFILM.take 8 = FUJIFILM := by decide
    unfold classifyPrefix specClassify
    rw [hF]

/-- C1 fails on the code: line 211 compares min(8, sizeof of a pointer) characters,
which is 4 wherever `std::min((uint32)8, sizeof(...))` compiles (`size_t` of 32
bits). There a three-channel frame of vendor `FUJI` with the Bayer code
0xe1e1e1e1 passes the vendor test and is classified FujiDiagonal, while the first
8 characters of its vendor name are not `FUJIFILM` and the priority function of
the claim gives Bayer phase 0. -/
theorem classifyMosaic_pointer_size :
    min 8 4 = 4 ∧
    memcmp (cstr FUJIFILM) (cstr "FUJI".toList) (min 8 4) = some 0 ∧
    classifyMosaic 4 3 "FUJI".toList 0xe1e1e1e1
      = some ⟨0xFFFFFFFF, MosaicClassification.FujiDiagonal 0⟩ ∧
    (cchars "FUJI".toList).take 8 ≠ FUJIFILM ∧
    specClassify 3 (cchars "FUJI".toList) 0xe1e1e1e1 = MosaicClassification.Bayer 0 := by
  decide

/-- Helper: `dng_rect::W()` and `dng_rect::H()` are `uint32` values. -/
theorem dng_rect_W_H_lt (a : dng_rect) : a.W < 4294967296 ∧ a.H < 4294967296 := by
  unfold dng_rect.W dng_rect.H u32
  constructor <;> split <;> omega

/-- Helper: `Put_uint32` writes four bytes. -/
theorem be32_length (v : Nat) : (be32 v).length = 4 := by simp [be32]

/-- Helper: a `Put` at the end of the stream appends. -/
theorem Put_at_end (d x : List Nat) (p : Nat) (hp : p = d.length) :
    (dng_memory_stream.Put ⟨d, p⟩ x).data = d ++ x := by
  subst hp
  simp [dng_memory_stream.Put]

/-- Helper: a `Put` inside the stream replaces exactly the bytes it covers. -/
theorem Put_inside (a mid post x : List Nat) (p : Nat) (hp : p = a.length)
    (hx : x.length = mid.length) :
    (dng_memory_stream.Put ⟨a ++ mid ++ post, p⟩ x).data = a ++ x ++ post := by
  subst hp
  simp [dng_memory_stream.Put, hx, List.take_append_eq_append_take,
    List.drop_append_eq_append_drop]

/-- Helper: the length of the stream after a `Put`. -/
theorem Put_data_length (s : dng_memory_stream) (x : List Nat) :
    (s.Put x).data.length = max s.data.length (s.pos + x.length) := by
  simp [dng_memory_stream.Put]
  omega

/-- Helper: the zero-filled directory written before the chunk loop. -/
theorem putZeroWords_data (n : Nat) : ∀ (s : dng_memory_stream), s.pos = s.data.length →
    (putZeroWords n s).data = s.data ++ List.replicate (4 * n) 0 ∧
    (putZeroWords n s).pos = (putZeroWords n s).data.length := by
  induction n with
  | zero => intro s h; simp [putZeroWords, h]
  | succ n ih =>
    intro s h
    have h1 : (s.Put_uint32 0).data = s.data ++ be32 0 := by
      cases s with
      | mk d p => exact Put_at_end d (be32 0) p h
    have h2 : (s.Put_uint32 0).pos = (s.Put_uint32 0).data.length := by
      rw [h1]
      simp [dng_memory_stream.Put_uint32, dng_memory_stream.Put, h, be32]
    obtain ⟨e1, e2⟩ := ih (s.Put_uint32 0) h2
    refine ⟨?_, by simpa [putZeroWords] using e2⟩
    simp only [putZeroWords]
    rw [e1, h1]
    have : 4 * (n + 1) = 4 + 4 * n := by ring
    rw [this, List.replicate_add]
    simp [be32]

/-! ### Embedding: the chunk loop -/

/-- Helper: while the running offset stays below 2^32 and input remains, `n`
iterations of the chunk loop fill `n` directory entries with the cumulative
offsets and append the `n` compressed chunks; the loop then goes on with the
`m` iterations left. -/
theorem embedLoop_run (deflateInit : Nat → Int) (deflate : List Nat → List Nat) (n : Nat) :
    ∀ (m block : Nat) (rest a payload : List Nat) (offset : Nat) (s : dng_memory_stream),
      s.data = a ++ List.replicate (4 * (m + n)) 0 ++ payload →
      a.length = (2 + block) * 4 →
      offset = s.data.length →
      n * CHUNK < rest.length + CHUNK →
      offset + (((chunkList n rest).map deflate).map List.length).sum < 4294967296 →
      (∀ b, b < block + n → deflateInit b = Z_OK) →
      (∀ c ∈ chunkList n rest, (deflate c).length ≤ CHUNK * 2) →
      ∃ p, embedLoop deflateInit deflate (m + n) block rest offset s =
        embedLoop deflateInit deflate m (block + n) (rest.drop (n * CHUNK))
          (offset + (((chunkList n rest).map deflate).map List.length).sum)
          ⟨a ++ (cumulative offset (((chunkList n rest).map deflate).map List.length)).flatMap
              be32 ++ List.replicate (4 * m) 0 ++ payload
              ++ ((chunkList n rest).map deflate).flatten, p⟩ := by
  induction n with
  | zero =>
    intro m block rest a payload offset s hs _ _ _ _ _ _
    refine ⟨s.pos, ?_⟩
    cases s with
    | mk d p =>
      simp only at hs
      simp [chunkList, cumulative, hs]
  | succ n ih =>
    intro m block rest a payload offset s hs ha ho hrest hfit hinit hbuf
    have hi : ¬ (deflateInit block ≠ Z_OK) := by
      rw [hinit block (by omega)]
      exact fun h => h rfl
    have hb : ¬ (CHUNK * 2 < (deflate (rest.take CHUNK)).length) := by
      have := hbuf (rest.take CHUNK) (by simp [chunkList])
      omega
    have hne : ¬ (rest.take CHUNK).length = 0 := by
      rw [List.length_take]
      unfold CHUNK at hrest ⊢
      omega
    simp only [chunkList, List.map_cons, List.sum_cons] at hfit
    have hw : wrap32 (offset + (deflate (rest.take CHUNK)).length)
        = offset + (deflate (rest.take CHUNK)).length := by
      unfold wrap32
      omega
    have e1 : ((s.SetWritePosition offset).Put (deflate (rest.take CHUNK))).data
        = s.data ++ deflate (rest.take CHUNK) :=
      Put_at_end s.data _ offset ho
    have hz : List.replicate (4 * (m + (n + 1))) (0 : Nat)
        = List.replicate 4 0 ++ List.replicate (4 * (m + n)) 0 := by
      rw [← List.replicate_add]
      congr 1
      ring
    have e2 : ((((s.SetWritePosition offset).Put (deflate (rest.take CHUNK))).SetWritePosition
          ((2 + block) * 4)).Put_uint32 (offset + (deflate (rest.take CHUNK)).length)).data
        = a ++ be32 (offset + (deflate (rest.take CHUNK)).length)
          ++ (List.replicate (4 * (m + n)) 0 ++ payload ++ deflate (rest.take CHUNK)) := by
      have := Put_inside a (List.replicate 4 0)
        (List.replicate (4 * (m + n)) 0 ++ payload ++ deflate (rest.take CHUNK))
        (be32 (offset + (deflate (rest.take CHUNK)).length)) ((2 + block) * 4) ha.symm
        (by simp [be32])
      have hassoc : s.data ++ deflate (rest.take CHUNK)
          = a ++ List.replicate 4 0
            ++ (List.replicate (4 * (m + n)) 0 ++ payload ++ deflate (rest.take CHUNK)) := by
        rw [hs, hz]
        simp only [List.append_assoc]
      show (dng_memory_stream.Put
        ⟨((s.SetWritePosition offset).Put (deflate (rest.take CHUNK))).data, (2 + block) * 4⟩
        (be32 (offset + (deflate (rest.take CHUNK)).length))).data = _
      rw [e1, hassoc]
      exact this
    obtain ⟨p, hp⟩ := ih m (block + 1) (rest.drop CHUNK)
      (a ++ be32 (offset + (deflate (rest.take CHUNK)).length))
      (payload ++ deflate (rest.take CHUNK))
      (offset + (deflate (rest.take CHUNK)).length)
      ((((s.SetWritePosition offset).Put (deflate (rest.take CHUNK))).SetWritePosition
          ((2 + block) * 4)).Put_uint32 (offset + (deflate (rest.take CHUNK)).length))
      (by rw [e2]; simp [List.append_assoc])
      (by simp [be32, ha]; ring)
      (by rw [e2, ho, hs]; simp [be32, hz]; omega)
      (by simp [CHUNK] at hrest ⊢; omega)
      (by omega)
      (fun b hb2 => hinit b (by omega))
      (fun c hc => hbuf c (by simp [chunkList, hc]))
    refine ⟨p, ?_⟩
    have hfuel : m + (n + 1) = (m + n) + 1 := rfl
    rw [hfuel, embedLoop]
    simp only [hi, hne, hb, if_false, hw]
    rw [hp]
    have hb : block + 1 + n = block + (n + 1) := by ring
    have hd : (rest.drop CHUNK).drop (n * CHUNK) = rest.drop ((n + 1) * CHUNK) := by
      rw [List.drop_drop]
      congr 1
      ring
    rw [hb, hd]
    simp only [chunkList, List.map_cons, List.sum_cons, cumulative, List.flatMap_cons,
      List.flatten_cons, List.append_assoc, Nat.add_assoc]

/-- Helper: `Put_uint32` at the end of the stream, as a whole stream value. -/
theorem Put_uint32_at_end (d : List Nat) (q v : Nat) (hq : q = d.length) :
    dng_memory_stream.Put_uint32 ⟨d, q⟩ v = ⟨d ++ be32 v, (d ++ be32 v).length⟩ := by
  subst hq
  simp [dng_memory_stream.Put_uint32, dng_memory_stream.Put, be32]

/-- Helper: the seven trailing `Put_uint32(0)` at the end of the stream. -/
theorem seven_zero_words_at_end (d : List Nat) (q : Nat) (hq : q = d.length) :
    (((((((dng_memory_stream.Put_uint32 ⟨d, q⟩ 0).Put_uint32 0).Put_uint32 0).Put_uint32
      0).Put_uint32 0).Put_uint32 0).Put_uint32 0).data = d ++ List.replicate 28 0 := by
  rw [Put_uint32_at_end d q 0 hq, Put_uint32_at_end _ _ 0 rfl, Put_uint32_at_end _ _ 0 rfl,
    Put_uint32_at_end _ _ 0 rfl, Put_uint32_at_end _ _ 0 rfl, Put_uint32_at_end _ _ 0 rfl,
    Put_uint32_at_end _ _ 0 rfl]
  simp [be32, List.replicate]

/-- Helper: the stream just before the chunk loop. -/
theorem header_stream (len blocks : Nat) :
    (putZeroWords blocks
      (((dng_memory_stream.mk [] 0).Put_uint32 len).Put_uint32 (4 * (2 + blocks)))).data
      = be32 len ++ be32 (4 * (2 + blocks)) ++ List.replicate (4 * blocks) 0 := by
  rw [Put_uint32_at_end [] 0 len rfl, Put_uint32_at_end _ _ _ rfl]
  have h := putZeroWords_data blocks
    ⟨[] ++ be32 len ++ be32 (4 * (2 + blocks)), ([] ++ be32 len ++ be32 (4 * (2 + blocks))).length⟩
    rfl
  rw [h.1]
  simp

/-- Helper: the `uint32` header values of an input shorter than 2^32 bytes. -/
theorem header_values (len : Nat) (hL : len < 4294967296) :
    wrap32 len = len ∧
    wrap32 ((len + 65535) / 65536) = chunkCount len ∧
    wrap32 ((2 + chunkCount len) * 4) = 4 * (2 + chunkCount len) ∧
    chunkCount len * CHUNK < len + CHUNK := by
  unfold wrap32 chunkCount CHUNK
  omega

/-- Helper: without `uint32` wrap-around the stream after the chunk loop is the
header, the directory and the compressed chunks, and the offset is its length. -/
theorem embedLoop_full (deflateInit : Nat → Int) (deflate : List Nat → List Nat)
    (data : List Nat)
    (hL : data.length < 4294967296) (hfit : payloadEnd deflate data < 4294967296)
    (hinit : ∀ b, b < chunkCount data.length → deflateInit b = Z_OK)
    (hbuf : ∀ c ∈ compressedChunks deflate data, c.length ≤ CHUNK * 2) :
    ∃ p, embedLoop deflateInit deflate (chunkCount data.length) 0 data
        (4 * (2 + chunkCount data.length))
        (putZeroWords (chunkCount data.length)
          (((dng_memory_stream.mk [] 0).Put_uint32 data.length).Put_uint32
            (4 * (2 + chunkCount data.length))))
      = LoopExit.done ⟨be32 data.length ++ be32 (4 * (2 + chunkCount data.length))
            ++ (directory deflate data).flatMap be32
            ++ (compressedChunks deflate data).flatten, p⟩
          (payloadEnd deflate data) := by
  obtain ⟨_, _, _, h4⟩ := header_values data.length hL
  have hs := header_stream data.length (chunkCount data.length)
  obtain ⟨p, hp⟩ := embedLoop_run deflateInit deflate (chunkCount data.length) 0 0 data
    (be32 data.length ++ be32 (4 * (2 + chunkCount data.length))) []
    (4 * (2 + chunkCount data.length))
    (putZeroWords (chunkCount data.length)
      (((dng_memory_stream.mk [] 0).Put_uint32 data.length).Put_uint32
        (4 * (2 + chunkCount data.length))))
    (by rw [hs]; simp)
    (by simp [be32])
    (by rw [hs]; simp [be32]; ring)
    h4
    (by simpa [payloadEnd, compressedChunks] using hfit)
    (fun b hb => hinit b (by omega))
    (fun c hc => hbuf (deflate c) (List.mem_map_of_mem deflate hc))
  refine ⟨p, ?_⟩
  simp only [Nat.zero_add] at hp
  rw [hp, embedLoop]
  simp [directory, compressedChunks, payloadEnd]

/-- Helper: the last cumulative offset is the start plus the sum of the lengths. -/
theorem cumulative_getLast (ls : List Nat) : ∀ (start d : Nat), ls ≠ [] →
    (cumulative start ls).getLast?.getD d = start + ls.sum := by
  induction ls with
  | nil => intro _ _ h; exact absurd rfl h
  | cons l ls ih =>
    intro start d _
    cases ls with
    | nil => simp [cumulative]
    | cons l2 ls2 =>
      have := ih (start + l) d (by simp)
      simp only [cumulative, List.sum_cons] at this ⊢
      rw [List.getLast?_cons_cons, this]
      omega

/-- Helper: `chunkList n` has `n` chunks. -/
theorem chunkList_length (n : Nat) : ∀ (data : List Nat), (chunkList n data).length = n := by
  induction n with
  | zero => intro _; rfl
  | succ n ih => intro data; simp [chunkList, ih]

/-- Helper: a list of words takes four bytes each. -/
theorem flatMap_be32_length (ws : List Nat) : (ws.flatMap be32).length = 4 * ws.length := by
  induction ws with
  | nil => rfl
  | cons w ws ih => simp [List.flatMap_cons, ih, be32]; ring

/-- Helper: one cumulative offset per length. -/
theorem cumulative_length (ls : List Nat) : ∀ start, (cumulative start ls).length = ls.length := by
  induction ls with
  | nil => intro _; rfl
  | cons l ls ih => intro start; simp [cumulative, ih]

/-- Helper: the directory has one entry per chunk. -/
theorem directory_length (deflate : List Nat → List Nat) (data : List Nat) :
    (directory deflate data).length = chunkCount data.length := by
  simp [directory, compressedChunks, cumulative_length, chunkList_length]

/-- Helper: the header, directory and chunks together end at `payloadEnd`. -/
theorem payload_length (deflate : List Nat → List Nat) (data : List Nat) :
    (be32 data.length ++ be32 (4 * (2 + chunkCount data.length))
      ++ (directory deflate data).flatMap be32
      ++ (compressedChunks deflate data).flatten).length = payloadEnd deflate data := by
  simp only [List.length_append, be32_length, flatMap_be32_length, directory_length,
    List.length_flatten, payloadEnd]
  ring

/-- Helper: the specified layout is 28 bytes longer than its payload. -/
theorem specBlock_length (deflate : List Nat → List Nat) (data : List Nat) :
    (specBlock deflate data).length = payloadEnd deflate data + 28 := by
  unfold specBlock
  rw [List.length_append, payload_length]
  simp

/-- Helper: when the running offset does not wrap, zlib initialises and every
compressed chunk fits the output buffer, the stream is the specified layout and
the block is its first `Length() mod 2^32` bytes. -/
theorem embedOriginal_no_wrap (deflateInit : Nat → Int) (deflate : List Nat → List Nat)
    (data : List Nat)
    (hL : data.length < 4294967296) (hfit : payloadEnd deflate data < 4294967296)
    (hinit : ∀ b, b < chunkCount data.length → deflateInit b = Z_OK)
    (hbuf : ∀ c ∈ compressedChunks deflate data, c.length ≤ CHUNK * 2) :
    embedOriginal deflateInit deflate data
      = EmbedExit.block ((specBlock deflate data).take
          (wrap32 (payloadEnd deflate data + 28))) := by
  obtain ⟨h1, h2, h3, _⟩ := header_values data.length hL
  obtain ⟨p, hp⟩ := embedLoop_full deflateInit deflate data hL hfit hinit hbuf
  unfold embedOriginal
  simp only [h1, h2, h3, hp, dng_memory_stream.SetWritePosition]
  rw [seven_zero_words_at_end _ _ (payload_length deflate data).symm]
  have hs : be32 data.length ++ be32 (4 * (2 + chunkCount data.length))
      ++ (directory deflate data).flatMap be32 ++ (compressedChunks deflate data).flatten
      ++ List.replicate 28 0 = specBlock deflate data := rfl
  rw [hs, specBlock_length]

/-- Helper: under the same conditions a block shorter than 2^32 bytes is the
specified layout. -/
theorem embedOriginal_fits (deflateInit : Nat → Int) (deflate : List Nat → List Nat)
    (data : List Nat)
    (hL : data.length < 4294967296) (hfit : payloadEnd deflate data + 28 < 4294967296)
    (hinit : ∀ b, b < chunkCount data.length → deflateInit b = Z_OK)
    (hbuf : ∀ c ∈ compressedChunks deflate data, c.length ≤ CHUNK * 2) :
    embedOriginal deflateInit deflate data = EmbedExit.block (specBlock deflate data) := by
  rw [embedOriginal_no_wrap deflateInit deflate data hL (by omega) hinit hbuf]
  have hw : wrap32 (payloadEnd deflate data + 28) = (specBlock deflate data).length := by
    rw [specBlock_length]
    unfold wrap32
    omega
  rw [hw, List.take_length]

/-- C3 (amended): for every input of length L < 2^32, when every `deflateInit`
call returns `Z_OK`, every compressed chunk fits the 131072-byte output buffer
and the directory region, the compressed chunks and the 28 trailing bytes
together stay below 2^32 bytes, the embedding ends with a block and this block
is exactly: big-endian L, big-endian 4(2+N), the N cumulative end offsets, the N
compressed chunks in order, then 28 zero bytes; its length is the last directory
entry (8 when N = 0) plus 28. -/
theorem embedOriginal_layout (deflateInit : Nat → Int) (deflate : List Nat → List Nat)
    (data : List Nat)
    (hL : data.length < 4294967296) (hfit : payloadEnd deflate data + 28 < 4294967296)
    (hinit : ∀ b, b < chunkCount data.length → deflateInit b = Z_OK)
    (hbuf : ∀ c ∈ compressedChunks deflate data, c.length ≤ CHUNK * 2) :
    embedOriginal deflateInit deflate data = EmbedExit.block (specBlock deflate data) ∧
    (specBlock deflate data).length = (directory deflate data).getLast?.getD 8 + 28 := by
  refine ⟨embedOriginal_fits deflateInit deflate data hL hfit hinit hbuf, ?_⟩
  rw [specBlock_length]
  suffices h : payloadEnd deflate data = (directory deflate data).getLast?.getD 8 by rw [h]
  by_cases hN : chunkCount data.length = 0
  · have hd : directory deflate data = [] :=
      List.eq_nil_of_length_eq_zero (by rw [directory_length, hN])
    have hc : compressedChunks deflate data = [] :=
      List.eq_nil_of_length_eq_zero (by simp [compressedChunks, chunkList_length, hN])
    simp [hd, payloadEnd, hN, hc]
  · have hne : (compressedChunks deflate data).map List.length ≠ [] := by
      intro h
      have := congrArg List.length h
      simp [compressedChunks, chunkList_length] at this
      exact hN this
    have := cumulative_getLast _ (4 * (2 + chunkCount data.length)) 8 hne
    simpa [directory, payloadEnd] using this.symm

/-- Witness of C3: the three-byte file 1, 2, 3 with the stored-block compressor. -/
theorem embedOriginal_layout_witness :
    embedOriginal (fun _ => Z_OK) storedDeflate [1, 2, 3]
      = EmbedExit.block (specBlock storedDeflate [1, 2, 3]) ∧
    (specBlock storedDeflate [1, 2, 3]).length
      = (directory storedDeflate [1, 2, 3]).getLast?.getD 8 + 28 :=
  embedOriginal_layout (fun _ => Z_OK) storedDeflate [1, 2, 3] (by decide) (by decide)
    (fun _ _ => rfl) (by decide)

/-- Helper: a big-endian word read back at the start of a block. -/
theorem readBE32_be32 (v : Nat) (t : List Nat) (hv : v < 4294967296) :
    readBE32 (be32 v ++ t) 0 = v := by
  simp only [readBE32, be32, List.cons_append, List.nil_append, List.getD_cons_zero,
    List.getD_cons_succ, Nat.zero_add]
  omega

/-! ### Embedding: reading a block back through its directory -/

/-- Helper: reading past a block's first part reads in the second part. -/
theorem readBE32_skip (a rest : List Nat) (j : Nat) :
    readBE32 (a ++ rest) (a.length + j) = readBE32 rest j := by
  unfold readBE32
  rw [List.getD_append_right a rest 0 (a.length + j) (by omega),
    List.getD_append_right a rest 0 (a.length + j + 1) (by omega),
    List.getD_append_right a rest 0 (a.length + j + 2) (by omega),
    List.getD_append_right a rest 0 (a.length + j + 3) (by omega)]
  have e0 : a.length + j - a.length = j := by omega
  have e1 : a.length + j + 1 - a.length = j + 1 := by omega
  have e2 : a.length + j + 2 - a.length = j + 2 := by omega
  have e3 : a.length + j + 3 - a.length = j + 3 := by omega
  rw [e0, e1, e2, e3]

/-- Helper: word `i` of a block that starts with the words `ws`. -/
theorem readBE32_words (ws : List Nat) : ∀ (t : List Nat) (i : Nat),
    (∀ w ∈ ws, w < 4294967296) → i < ws.length →
    readBE32 (ws.flatMap be32 ++ t) (4 * i) = ws.getD i 0 := by
  induction ws with
  | nil => intro _ i _ hi; simp at hi
  | cons w ws ih =>
    intro t i hws hi
    rw [List.flatMap_cons, List.append_assoc]
    cases i with
    | zero => exact readBE32_be32 w _ (hws w (by simp))
    | succ i =>
      have e : 4 * (i + 1) = (be32 w).length + 4 * i := by rw [be32_length]; ring
      rw [e, readBE32_skip, List.getD_cons_succ]
      exact ih t i (fun v hv => hws v (by simp [hv])) (by simpa using hi)

/-- Helper: entry `k` of the offsets `start, start + l_0, ...` is `start` plus the
first `k` lengths. -/
theorem cumulative_getD (ls : List Nat) : ∀ (start k : Nat), k ≤ ls.length →
    (start :: cumulative start ls).getD k 0 = start + (ls.take k).sum := by
  induction ls with
  | nil =>
    intro start k hk
    have : k = 0 := by simpa using hk
    subst this
    simp
  | cons l ls ih =>
    intro start k hk
    cases k with
    | zero => simp
    | succ k =>
      rw [List.getD_cons_succ]
      simp only [cumulative]
      rw [ih (start + l) k (by simpa using hk)]
      simp [Nat.add_assoc]

/-- Helper: every cumulative offset is at most the total. -/
theorem cumulative_le (ls : List Nat) : ∀ (start w : Nat), w ∈ cumulative start ls →
    w ≤ start + ls.sum := by
  induction ls with
  | nil => intro _ _ h; simp [cumulative] at h
  | cons l ls ih =>
    intro start w h
    simp only [cumulative, List.mem_cons] at h
    rcases h with h | h
    · subst h; simp
    · have := ih (start + l) w h
      simp only [List.sum_cons]
      omega

/-- Helper: chunk `k` sits in the concatenation right after the first `k` chunks. -/
theorem flatten_chunk_at (cs : List (List Nat)) : ∀ (t : List Nat) (k : Nat), k < cs.length →
    ((cs.flatten ++ t).drop ((cs.map List.length).take k).sum).take (cs.getD k []).length
      = cs.getD k [] := by
  induction cs with
  | nil => intro _ k hk; simp at hk
  | cons c cs ih =>
    intro t k hk
    cases k with
    | zero =>
      simp only [List.take_zero, List.sum_nil, List.drop_zero, List.getD_cons_zero,
        List.flatten_cons, List.append_assoc]
      exact List.take_left' rfl
    | succ k =>
      simp only [List.map_cons, List.take_succ_cons, List.sum_cons, List.getD_cons_succ,
        List.flatten_cons, List.append_assoc]
      rw [List.drop_append]
      exact ih t k (by simpa using hk)

/-- Helper: enough chunks put back together give the data. -/
theorem chunkList_flatten (n : Nat) : ∀ (data : List Nat), data.length ≤ n * CHUNK →
    (chunkList n data).flatten = data := by
  induction n with
  | zero =>
    intro data h
    have : data = [] := List.eq_nil_of_length_eq_zero (by omega)
    simp [chunkList, this]
  | succ n ih =>
    intro data h
    simp only [chunkList, List.flatten_cons]
    rw [ih (data.drop CHUNK) (by rw [List.length_drop]; unfold CHUNK at h ⊢; omega)]
    exact List.take_append_drop CHUNK data

/-- Helper: chunk `k` is the 65536 bytes from byte `k * 65536` on. -/
theorem chunkList_getD (n : Nat) : ∀ (data : List Nat) (k : Nat), k < n →
    (chunkList n data).getD k [] = (data.drop (k * CHUNK)).take CHUNK := by
  induction n with
  | zero => intro _ k hk; omega
  | succ n ih =>
    intro data k hk
    cases k with
    | zero => simp [chunkList]
    | succ k =>
      simp only [chunkList, List.getD_cons_succ]
      rw [ih (data.drop CHUNK) k (by omega), List.drop_drop]
      congr 2
      ring

/-- Helper: a list is the map of its indexing function over its indices. -/
theorem map_range_getD (l : List (List Nat)) (f : Nat → List Nat)
    (hf : ∀ k, k < l.length → f k = l.getD k []) :
    (List.range l.length).map f = l := by
  apply List.ext_getElem
  · simp
  · intro i h1 h2
    simp only [List.getElem_map, List.getElem_range]
    rw [hf i h2, List.getD_eq_getElem l [] h2]

/-- Helper: dropping a first part of known length and `j` more. -/
theorem drop_append_of_length (a rest : List Nat) (n j : Nat) (h : a.length = n) :
    (a ++ rest).drop (n + j) = rest.drop j := by
  subst h
  exact List.drop_append j

/-- Helper: the specified block, seen as its header words followed by the chunks. -/
theorem specBlock_words (deflate : List Nat → List Nat) (data : List Nat) :
    specBlock deflate data
      = (data.length :: 4 * (2 + chunkCount data.length) :: directory deflate data).flatMap be32
        ++ ((compressedChunks deflate data).flatten ++ List.replicate 28 0) := by
  simp only [specBlock, List.flatMap_cons, List.append_assoc]

/-- Helper: without wrap-around every header word is a `uint32`. -/
theorem specBlock_words_lt (deflate : List Nat → List Nat) (data : List Nat)
    (hL : data.length < 4294967296) (hfit : payloadEnd deflate data < 4294967296) :
    ∀ w ∈ data.length :: 4 * (2 + chunkCount data.length) :: directory deflate data,
      w < 4294967296 := by
  intro w hw
  simp only [List.mem_cons] at hw
  unfold payloadEnd at hfit
  rcases hw with h | h | h
  · omega
  · omega
  · have := cumulative_le _ _ w h
    omega

/-- Helper: reading chunk `k` of the specified block through the directory gives
the `k`-th compressed chunk. -/
theorem extractChunk_specBlock (deflate : List Nat → List Nat) (data : List Nat)
    (hL : data.length < 4294967296) (hfit : payloadEnd deflate data < 4294967296)
    (k : Nat) (hk : k < chunkCount data.length) :
    extractChunk (specBlock deflate data) k = (compressedChunks deflate data).getD k [] := by
  have hcs : (compressedChunks deflate data).length = chunkCount data.length := by
    simp [compressedChunks, chunkList_length]
  have hws := specBlock_words_lt deflate data hL hfit
  have hdl := directory_length deflate data
  have r1 : readBE32 (specBlock deflate data) (4 * (1 + k))
      = 4 * (2 + chunkCount data.length)
        + (((compressedChunks deflate data).map List.length).take k).sum := by
    rw [specBlock_words, readBE32_words _ _ (1 + k) hws (by simp [hdl]; omega)]
    rw [Nat.add_comm 1 k, List.getD_cons_succ]
    exact cumulative_getD _ _ k (by simp [hcs]; omega)
  have r2 : readBE32 (specBlock deflate data) (4 * (2 + k))
      = 4 * (2 + chunkCount data.length)
        + (((compressedChunks deflate data).map List.length).take (k + 1)).sum := by
    rw [specBlock_words, readBE32_words _ _ (2 + k) hws (by simp [hdl]; omega)]
    rw [show 2 + k = (k + 1) + 1 by ring, List.getD_cons_succ]
    exact cumulative_getD _ _ (k + 1) (by simp [hcs]; omega)
  have hstep : (((compressedChunks deflate data).map List.length).take (k + 1)).sum
      = (((compressedChunks deflate data).map List.length).take k).sum
        + ((compressedChunks deflate data).getD k []).length := by
    rw [List.sum_take_succ _ k (by simp [hcs]; omega), List.getElem_map,
      List.getD_eq_getElem _ _ (show k < (compressedChunks deflate data).length by omega)]
  have hhead : ((data.length :: 4 * (2 + chunkCount data.length)
      :: directory deflate data).flatMap be32).length = 4 * (2 + chunkCount data.length) := by
    rw [flatMap_be32_length]
    simp [hdl]
    ring
  unfold extractChunk
  rw [r1, r2, hstep]
  rw [specBlock_words, drop_append_of_length _ _ _ _ hhead]
  have hsub : 4 * (2 + chunkCount data.length)
      + ((((compressedChunks deflate data).map List.length).take k).sum
        + ((compressedChunks deflate data).getD k []).length)
      - (4 * (2 + chunkCount data.length)
        + (((compressedChunks deflate data).map List.length).take k).sum)
      = ((compressedChunks deflate data).getD k []).length := by omega
  rw [hsub]
  exact flatten_chunk_at _ _ k (by omega)

/-- Helper: decompressing chunk `k` read through the directory gives chunk `k` of
the original. -/
theorem inflate_extractChunk (deflate inflate : List Nat → List Nat) (data : List Nat)
    (hL : data.length < 4294967296) (hfit : payloadEnd deflate data < 4294967296)
    (hinv : ∀ c ∈ chunkList (chunkCount data.length) data, inflate (deflate c) = c)
    (k : Nat) (hk : k < chunkCount data.length) :
    inflate (extractChunk (specBlock deflate data) k)
      = (chunkList (chunkCount data.length) data).getD k [] := by
  have hlen := chunkList_length (chunkCount data.length) data
  rw [extractChunk_specBlock deflate data hL hfit k hk]
  unfold compressedChunks
  rw [List.getD_eq_getElem _ _ (by simp [hlen]; exact hk), List.getElem_map,
    List.getD_eq_getElem _ _ (by rw [hlen]; exact hk)]
  exact hinv _ (List.getElem_mem _)

/-- Helper: the stored-block compressor adds 11 bytes to a chunk of up to 65535
bytes and 16 bytes to a longer one. -/
theorem storedDeflate_length (c : List Nat) :
    (storedDeflate c).length = c.length + (if c.length ≤ 65535 then 11 else 16) := by
  unfold storedDeflate storedBlock
  split
  · simp only [List.length_append, List.length_cons, List.length_nil, be32_length]
    omega
  · simp only [List.length_append, List.length_cons, List.length_nil, be32_length,
      List.length_take, List.length_drop]
    omega

/-- Helper: `storedInflate` inverts `storedDeflate` on every chunk. -/
theorem storedInflate_storedDeflate (c : List Nat) (h : c.length ≤ CHUNK) :
    storedInflate (storedDeflate c) = c := by
  unfold storedInflate storedDeflate storedBlock
  by_cases h1 : c.length ≤ 65535
  · have hlen : c.length % 256 + 256 * (c.length / 256) = c.length := Nat.mod_add_div _ _
    simp only [if_pos h1, List.cons_append, List.nil_append, List.drop_succ_cons,
      List.drop_zero, storedBlocks, if_true, Bool.true_eq_false, if_false, hlen]
    simp
  · have h2 : c.length = 65536 := by unfold CHUNK at h; omega
    have ht : (c.take 65535).length = 65535 := by rw [List.length_take]; omega
    have hd : (c.drop 65535).length = 1 := by rw [List.length_drop]; omega
    simp only [if_neg h1, List.cons_append, List.nil_append, List.drop_succ_cons,
      List.drop_zero, storedBlocks, ht, hd, List.append_assoc]
    have e1 : ∀ t : List Nat, (c.take 65535 ++ t).take (65535 % 256 + 256 * (65535 / 256))
        = c.take 65535 := fun t => List.take_left' ht
    have e2 : ∀ t : List Nat, (c.take 65535 ++ t).drop (65535 % 256 + 256 * (65535 / 256))
        = t := fun t => List.drop_left' ht
    have e3 : ∀ t : List Nat, (c.drop 65535 ++ t).take (1 % 256 + 256 * (1 / 256))
        = c.drop 65535 := fun t => List.take_left' hd
    simp only [e1, e2, e3, Bool.false_eq_true, if_false, List.cons_append, storedBlocks,
      if_true]
    simp

/-- Helper: no chunk is longer than `CHUNK`. -/
theorem chunkList_mem_length (n : Nat) : ∀ (data c : List Nat), c ∈ chunkList n data →
    c.length ≤ CHUNK := by
  induction n with
  | zero => intro _ c h; simp [chunkList] at h
  | succ n ih =>
    intro data c h
    simp only [chunkList, List.mem_cons] at h
    rcases h with h | h
    · rw [h, List.length_take]
      omega
    · exact ih _ c h

/-- Helper: every chunk compressed with stored blocks fits `outBuffer`. -/
theorem storedDeflate_fits (data : List Nat) :
    ∀ c ∈ compressedChunks storedDeflate data, c.length ≤ CHUNK * 2 := by
  intro c hc
  unfold compressedChunks at hc
  obtain ⟨x, hx, rfl⟩ := List.mem_map.mp hc
  have := chunkList_mem_length _ _ x hx
  rw [storedDeflate_length]
  unfold CHUNK at this ⊢
  split <;> omega

/-- Helper: the lengths of the chunks of a file of `k` full chunks and `r` more
bytes. -/
theorem chunkList_lengths (k : Nat) : ∀ (data : List Nat) (r : Nat),
    data.length = k * CHUNK + r → r ≤ CHUNK →
    (chunkList (k + 1) data).map List.length = List.replicate k CHUNK ++ [r] := by
  induction k with
  | zero =>
    intro data r hlen hr
    simp only [chunkList, List.map_cons, List.map_nil, List.length_take, List.replicate_zero,
      List.nil_append]
    congr 1
    omega
  | succ k ih =>
    intro data r hlen hr
    have hd : (data.drop CHUNK).length = k * CHUNK + r := by
      rw [List.length_drop, hlen]
      unfold CHUNK
      omega
    have ht : (data.take CHUNK).length = CHUNK := by
      rw [List.length_take, hlen]
      unfold CHUNK
      omega
    have := ih (data.drop CHUNK) r hd hr
    rw [chunkList, List.map_cons, this, ht, List.replicate_succ, List.cons_append]

/-- Helper: where the payload ends for a file of `k` full chunks and `r` more
bytes under the stored-block compressor. -/
theorem payloadEnd_storedDeflate (k r : Nat) (data : List Nat)
    (hlen : data.length = k * CHUNK + r) (hr : 0 < r) (hr2 : r ≤ 65535) :
    payloadEnd storedDeflate data = 4 * (2 + (k + 1)) + k * (CHUNK + 16) + (r + 11) := by
  have hcount : chunkCount data.length = k + 1 := by
    rw [hlen]
    unfold chunkCount CHUNK
    omega
  have hl := chunkList_lengths k data r hlen (by unfold CHUNK; omega)
  have hg : (List.length ∘ storedDeflate)
      = (fun n => n + if n ≤ 65535 then 11 else 16) ∘ List.length := by
    funext c
    simp only [Function.comp, storedDeflate_length]
  have h16 : ¬ (CHUNK ≤ 65535) := by unfold CHUNK; omega
  unfold payloadEnd compressedChunks
  rw [hcount, List.map_map, hg, ← List.map_map, hl, List.map_append, List.map_replicate,
    List.sum_append, List.sum_replicate]
  simp only [if_neg h16, if_pos hr2, List.map_cons, List.map_nil, List.sum_cons, List.sum_nil,
    smul_eq_mul]
  omega

/-- Helper: the last directory entry (8 for an empty file) is where the payload
ends. -/
theorem directory_getLast (deflate : List Nat → List Nat) (data : List Nat) :
    (directory deflate data).getLast?.getD 8 = payloadEnd deflate data := by
  by_cases hN : chunkCount data.length = 0
  · have hd : directory deflate data = [] :=
      List.eq_nil_of_length_eq_zero (by rw [directory_length, hN])
    have hc : compressedChunks deflate data = [] :=
      List.eq_nil_of_length_eq_zero (by simp [compressedChunks, chunkList_length, hN])
    simp [hd, payloadEnd, hN, hc]
  · have hne : (compressedChunks deflate data).map List.length ≠ [] := by
      intro h
      have := congrArg List.length h
      simp [compressedChunks, chunkList_length] at this
      exact hN this
    have := cumulative_getLast _ (4 * (2 + chunkCount data.length)) 8 hne
    simpa [directory, payloadEnd] using this

/-- Helper: the length of `noiseOriginal`. -/
theorem noiseOriginal_length : noiseOriginal.length = 4293656925 := by
  unfold noiseOriginal
  rw [List.length_map, List.length_range]

/-- Helper: under the stored-block compressor the payload of `noiseOriginal` ends
28 bytes below 2^32. -/
theorem payloadEnd_noiseOriginal : payloadEnd storedDeflate noiseOriginal = 4294967268 := by
  rw [payloadEnd_storedDeflate 65516 349 noiseOriginal
    (by rw [noiseOriginal_length]; decide) (by decide) (by decide)]
  decide

/-- Helper: the block the program builds for `noiseOriginal` is empty. -/
theorem embedOriginal_noiseOriginal :
    embedOriginal (fun _ => Z_OK) storedDeflate noiseOriginal = EmbedExit.block [] := by
  rw [embedOriginal_no_wrap (fun _ => Z_OK) storedDeflate noiseOriginal
    (by rw [noiseOriginal_length]; decide) (by rw [payloadEnd_noiseOriginal]; decide)
    (fun _ _ => rfl) (storedDeflate_fits noiseOriginal), payloadEnd_noiseOriginal]
  have hw : wrap32 (4294967268 + 28) = 0 := by decide
  rw [hw, List.take_zero]

/-- Counterexample to C3 as stated: `noiseOriginal` has L = 4293656925 < 2^32
bytes in N = 65517 chunks, zlib initialises every time and the stored-block
compressor keeps every compressed chunk inside the output buffer. No offset
wraps (the last directory entry is 2^32 - 28), but the stream is exactly 2^32
bytes long, `host.Allocate` and `Get` take this length as the `uint32` 0, and the
block handed over is empty, not the specified layout of 2^32 bytes. -/
theorem embedOriginal_narrowing_counterexample :
    noiseOriginal.length = 4293656925 ∧
    chunkCount noiseOriginal.length = 65517 ∧
    (∀ c ∈ compressedChunks storedDeflate noiseOriginal, c.length ≤ CHUNK * 2) ∧
    (directory storedDeflate noiseOriginal).getLast?.getD 8 = 4294967268 ∧
    (specBlock storedDeflate noiseOriginal).length = 4294967296 ∧
    embedOriginal (fun _ => Z_OK) storedDeflate noiseOriginal = EmbedExit.block [] ∧
    embedOriginal (fun _ => Z_OK) storedDeflate noiseOriginal
      ≠ EmbedExit.block (specBlock storedDeflate noiseOriginal) := by
  have hs : (specBlock storedDeflate noiseOriginal).length = 4294967296 := by
    rw [specBlock_length, payloadEnd_noiseOriginal]
  refine ⟨noiseOriginal_length, by rw [noiseOriginal_length]; decide,
    storedDeflate_fits noiseOriginal,
    by rw [directory_getLast, payloadEnd_noiseOriginal], hs, embedOriginal_noiseOriginal, ?_⟩
  rw [embedOriginal_noiseOriginal]
  intro h
  have hl := congrArg (fun e => match e with
    | EmbedExit.block b => b.length
    | _ => 0) h
  simp only [List.length_nil] at hl
  rw [hs] at hl
  exact absurd hl (by decide)

/-- C4 (amended): for every input of length L < 2^32, when every `deflateInit`
call returns `Z_OK`, every compressed chunk fits the 131072-byte output buffer,
the directory region, the compressed chunks and the 28 trailing bytes together
stay below 2^32 bytes, and the decompressor inverts the compressor on each
chunk: the embedding ends with a block whose word 0 is L; reading the
directory, decompressing each chunk on its own and concatenating gives back the
original bytes; every chunk but the last decompresses to 65536 bytes and the
last to between 1 and 65536 bytes. -/
theorem extractOriginal_roundtrip (deflateInit : Nat → Int)
    (deflate inflate : List Nat → List Nat) (data : List Nat)
    (hL : data.length < 4294967296) (hfit : payloadEnd deflate data + 28 < 4294967296)
    (hinit : ∀ b, b < chunkCount data.length → deflateInit b = Z_OK)
    (hbuf : ∀ c ∈ compressedChunks deflate data, c.length ≤ CHUNK * 2)
    (hinv : ∀ c ∈ chunkList (chunkCount data.length) data, inflate (deflate c) = c) :
    ∃ block, embedOriginal deflateInit deflate data = EmbedExit.block block ∧
      readBE32 block 0 = data.length ∧
      extractOriginal inflate block = data ∧
      (∀ k, k + 1 < chunkCount data.length →
        (inflate (extractChunk block k)).length = 65536) ∧
      (0 < chunkCount data.length →
        1 ≤ (inflate (extractChunk block (chunkCount data.length - 1))).length ∧
        (inflate (extractChunk block (chunkCount data.length - 1))).length ≤ 65536) := by
  refine ⟨specBlock deflate data,
    embedOriginal_fits deflateInit deflate data hL hfit hinit hbuf, ?_⟩
  have hfit2 : payloadEnd deflate data < 4294967296 := by omega
  have hword0 : readBE32 (specBlock deflate data) 0 = data.length := by
    unfold specBlock
    simp only [List.append_assoc]
    exact readBE32_be32 _ _ hL
  have hchunk := inflate_extractChunk deflate inflate data hL hfit2 hinv
  have hlen := chunkList_length (chunkCount data.length) data
  have hcover : data.length ≤ chunkCount data.length * CHUNK := by
    unfold chunkCount CHUNK
    omega
  refine ⟨hword0, ?_, ?_, ?_⟩
  · unfold extractOriginal
    rw [hword0]
    have hmap : (List.range (chunkList (chunkCount data.length) data).length).map
        (fun k => inflate (extractChunk (specBlock deflate data) k))
        = chunkList (chunkCount data.length) data :=
      map_range_getD _ _ (fun k hk => hchunk k (by rw [hlen] at hk; exact hk))
    rw [hlen] at hmap
    rw [hmap]
    exact chunkList_flatten _ data hcover
  · intro k hk
    rw [hchunk k (by omega), chunkList_getD _ data k (by omega), List.length_take,
      List.length_drop]
    unfold chunkCount at hk
    unfold CHUNK
    omega
  · intro hN
    rw [hchunk _ (by omega), chunkList_getD _ data _ (by omega), List.length_take,
      List.length_drop]
    unfold chunkCount at hN ⊢
    unfold CHUNK
    omega

/-- Witness of C4: a 150000-byte input, compressed with stored blocks, gives a
block with word 0 equal to 150000, 3 chunks, and decodes back to itself. -/
theorem extractOriginal_roundtrip_witness :
    (sample150000.length = 150000 ∧ chunkCount sample150000.length = 3) ∧
    ∃ block, embedOriginal (fun _ => Z_OK) storedDeflate sample150000
        = EmbedExit.block block ∧
      readBE32 block 0 = 150000 ∧
      extractOriginal storedInflate block = sample150000 := by
  have hlen : sample150000.length = 150000 := List.length_replicate _ _
  refine ⟨⟨hlen, by rw [hlen]; decide⟩, ?_⟩
  obtain ⟨block, hb, hw, hx, _⟩ := extractOriginal_roundtrip (fun _ => Z_OK) storedDeflate
    storedInflate sample150000 (by rw [hlen]; decide)
    (by rw [payloadEnd_storedDeflate 2 18928 sample150000 (by rw [hlen]; decide) (by decide)
      (by decide)]; decide)
    (fun _ _ => rfl) (storedDeflate_fits sample150000)
    (fun c hc => storedInflate_storedDeflate c (chunkList_mem_length _ _ c hc))
  exact ⟨block, hb, by rw [hw, hlen], hx⟩

/-- Counterexample to C4 as stated: `storedInflate` inverts `storedDeflate` on
every chunk and `noiseOriginal` is shorter than 2^32 bytes, yet the stream is
exactly 2^32 bytes long, the block the program hands over is empty, and
decoding it through its directory gives the empty sequence, not the original. -/
theorem extractOriginal_narrowing_counterexample :
    (∀ c ∈ chunkList (chunkCount noiseOriginal.length) noiseOriginal,
      storedInflate (storedDeflate c) = c) ∧
    noiseOriginal.length < 4294967296 ∧
    embedOriginal (fun _ => Z_OK) storedDeflate noiseOriginal = EmbedExit.block [] ∧
    extractOriginal storedInflate [] = [] ∧
    extractOriginal storedInflate [] ≠ noiseOriginal := by
  refine ⟨fun c hc => storedInflate_storedDeflate c (chunkList_mem_length _ _ c hc),
    by rw [noiseOriginal_length]; decide, embedOriginal_noiseOriginal, rfl, ?_⟩
  intro h
  have hl := congrArg List.length h
  rw [noiseOriginal_length] at hl
  exact absurd hl (by decide)

/-- A failed `deflateInit` ends `main`. For every non-empty input shorter than 2^32
bytes, when the first `deflateInit` call returns a status other than `Z_OK`,
`main` returns this status and no block is handed over. -/
theorem embedOriginal_deflateInit_fails (deflateInit : Nat → Int)
    (deflate : List Nat → List Nat) (data : List Nat)
    (hL : data.length < 4294967296) (h0 : 0 < data.length) (hret : deflateInit 0 ≠ Z_OK) :
    embedOriginal deflateInit deflate data = EmbedExit.returns (deflateInit 0) := by
  obtain ⟨h1, h2, _, _⟩ := header_values data.length hL
  obtain ⟨n, hn⟩ : ∃ n, chunkCount data.length = n + 1 :=
    ⟨chunkCount data.length - 1, by unfold chunkCount; omega⟩
  unfold embedOriginal
  simp only [h1, h2, hn, embedLoop, if_pos hret]

/-- Witness of the `deflateInit` theorem: zlib reports `Z_MEM_ERROR` (-4) on the
three-byte file 1, 2, 3. -/
theorem embedOriginal_deflateInit_fails_witness :
    embedOriginal (fun _ => -4) storedDeflate [1, 2, 3] = EmbedExit.returns (-4) :=
  embedOriginal_deflateInit_fails (fun _ => -4) storedDeflate [1, 2, 3] (by decide) (by decide)
    (by decide)

/-- A compressed chunk that does not fit `outBuffer`. For every non-empty input
shorter than 2^32 bytes, when the first `deflateInit` call returns `Z_OK` and the
complete compressed form of the first chunk has more than `CHUNK * 2` bytes,
`deflate` cannot finish in the buffer and `assert(ret == Z_STREAM_END)` fails. -/
theorem embedOriginal_assert_fails (deflateInit : Nat → Int)
    (deflate : List Nat → List Nat) (data : List Nat)
    (hL : data.length < 4294967296) (h0 : 0 < data.length) (hinit : deflateInit 0 = Z_OK)
    (hbig : CHUNK * 2 < (deflate (data.take CHUNK)).length) :
    embedOriginal deflateInit deflate data = EmbedExit.assertFails := by
  obtain ⟨h1, h2, _, _⟩ := header_values data.length hL
  obtain ⟨n, hn⟩ : ∃ n, chunkCount data.length = n + 1 :=
    ⟨chunkCount data.length - 1, by unfold chunkCount; omega⟩
  have hi : ¬ (deflateInit 0 ≠ Z_OK) := fun h => h hinit
  have hne : ¬ (data.take CHUNK).length = 0 := by
    rw [List.length_take]
    unfold CHUNK
    omega
  unfold embedOriginal
  simp only [h1, h2, hn, embedLoop, if_neg hi, if_neg hne, if_pos hbig]

/-- Witness of the assertion theorem: a compressor that returns 131073 bytes for
the three-byte file 1, 2, 3. -/
theorem embedOriginal_assert_fails_witness :
    embedOriginal (fun _ => Z_OK) (fun _ => List.replicate 131073 0) [1, 2, 3]
      = EmbedExit.assertFails :=
  embedOriginal_assert_fails (fun _ => Z_OK) (fun _ => List.replicate 131073 0) [1, 2, 3]
    (by decide) (by decide) rfl (by rw [List.length_replicate]; decide)

/-- The block when the stream reaches 2^32 bytes without a wrapped offset. For every
input of length L < 2^32, when every `deflateInit` call returns `Z_OK`, every
compressed chunk fits the output buffer and the last directory entry is below
2^32 but less than 28 below it, the block handed over is only the first
(last entry + 28 - 2^32) bytes of the specified layout: fewer than 28 bytes. -/
theorem embedOriginal_truncated (deflateInit : Nat → Int) (deflate : List Nat → List Nat)
    (data : List Nat)
    (hL : data.length < 4294967296) (hfit : payloadEnd deflate data < 4294967296)
    (hlong : 4294967296 ≤ payloadEnd deflate data + 28)
    (hinit : ∀ b, b < chunkCount data.length → deflateInit b = Z_OK)
    (hbuf : ∀ c ∈ compressedChunks deflate data, c.length ≤ CHUNK * 2) :
    embedOriginal deflateInit deflate data
      = EmbedExit.block ((specBlock deflate data).take
          (payloadEnd deflate data + 28 - 4294967296)) ∧
    ((specBlock deflate data).take (payloadEnd deflate data + 28 - 4294967296)).length < 28 ∧
    4294967296 ≤ (specBlock deflate data).length := by
  have hw : wrap32 (payloadEnd deflate data + 28) = payloadEnd deflate data + 28 - 4294967296 := by
    unfold wrap32
    omega
  refine ⟨?_, ?_, ?_⟩
  · rw [embedOriginal_no_wrap deflateInit deflate data hL hfit hinit hbuf, hw]
  · rw [List.length_take]
    omega
  · rw [specBlock_length]
    exact hlong

/-- Witness of the truncation theorem: `noiseOriginal` under the stored-block
compressor. -/
theorem embedOriginal_truncated_witness :
    embedOriginal (fun _ => Z_OK) storedDeflate noiseOriginal
      = EmbedExit.block ((specBlock storedDeflate noiseOriginal).take
          (payloadEnd storedDeflate noiseOriginal + 28 - 4294967296)) :=
  (embedOriginal_truncated (fun _ => Z_OK) storedDeflate noiseOriginal
    (by rw [noiseOriginal_length]; decide) (by rw [payloadEnd_noiseOriginal]; decide)
    (by rw [payloadEnd_noiseOriginal])
    (fun _ _ => rfl) (storedDeflate_fits noiseOriginal)).1

/-! ### Dead pixel list -/

/-- Helper: an `int` holds a value of 32 bits. -/
theorem toInt32_range (v : Int) : -2147483648 ≤ toInt32 v ∧ toInt32 v < 2147483648 := by
  unfold toInt32
  omega

/-- Helper: every converted value is an `int`. -/
theorem scanInt_range (s : List Char) (v : Int) (r : List Char)
    (h : scanInt s = ScanResult.converted v r) : -2147483648 ≤ v ∧ v < 2147483648 := by
  unfold scanInt at h
  cases hd : s.dropWhile isspace with
  | nil => rw [hd] at h; exact absurd h (by simp)
  | cons c t =>
    rw [hd] at h
    simp only [scanNumber] at h
    split at h
    · exact absurd h (by simp)
    · simp only [ScanResult.converted.injEq] at h
      rw [← h.1]
      exact toInt32_range _

/-- Helper: the `(unsigned)` comparison of the source is the range test. -/
theorem unsigned_ge_iff (v : Int) (n : Nat) (hv : -2147483648 ≤ v ∧ v < 2147483648)
    (hn : n < 2147483648) : u32 v ≥ n ↔ ¬ (0 ≤ v ∧ v < n) := by
  unfold u32
  omega

/-- Helper: the point test of the loop body, on `int` values. -/
theorem point_test (width height : Nat) (hw : width < 2147483648) (hh : height < 2147483648)
    (c r : Int) (hc : -2147483648 ≤ c ∧ c < 2147483648)
    (hr : -2147483648 ≤ r ∧ r < 2147483648) :
    (if u32 c ≥ width ∨ u32 r ≥ height then ([] : List dng_point) else [⟨r, c⟩])
      = pointOf width height [c, r] := by
  have key : (u32 c ≥ width ∨ u32 r ≥ height)
      ↔ ¬ (0 ≤ c ∧ c < width ∧ 0 ≤ r ∧ r < height) := by
    rw [unsigned_ge_iff c width hc hw, unsigned_ge_iff r height hr hh]
    tauto
  by_cases hin : 0 ≤ c ∧ c < width ∧ 0 ≤ r ∧ r < height
  · have : ¬ (u32 c ≥ width ∨ u32 r ≥ height) := fun h => key.mp h hin
    simp only [pointOf, if_pos hin, if_neg this]
  · have : u32 c ≥ width ∨ u32 r ≥ height := key.mpr hin
    simp only [pointOf, if_neg hin, if_pos this]

/-- Helper: one pass of the loop body adds the point of the first two leading
integers of the buffer cut at `#`, whatever the variables held before. -/
theorem deadPixelStep_points (width height : Nat) (hw : width < 2147483648)
    (hh : height < 2147483648) (line : List Char) (vars : ScanVars) :
    (deadPixelStep width height line vars).1
      = pointOf width height (scannedInts 2 ((cchars line).takeWhile (fun c => c != '#'))) := by
  unfold deadPixelStep sscanf_d_d_d
  simp only [scannedInts]
  cases h1 : scanInt ((cchars line).takeWhile (fun c => c != '#')) with
  | inputFailure => simp [pointOf]
  | matchingFailure => simp [pointOf]
  | converted c r1 =>
    have hc := scanInt_range _ _ _ h1
    simp only []
    cases h2 : scanInt r1 with
    | inputFailure => simp [pointOf]
    | matchingFailure => simp [pointOf]
    | converted r r2 =>
      have hr := scanInt_range _ _ _ h2
      have hp := point_test width height hw hh c r hc hr
      simp only []
      cases h3 : scanInt r2 with
      | inputFailure =>
        simp only [show ¬ ((2 : Int) < 2) by decide, if_false]
        rw [← hp]
        split <;> rfl
      | matchingFailure =>
        simp only [show ¬ ((2 : Int) < 2) by decide, if_false]
        rw [← hp]
        split <;> rfl
      | converted t r3 =>
        simp only [show ¬ ((3 : Int) < 2) by decide, if_false]
        rw [← hp]
        split <;> rfl

/-- Helper: `takeWhile` does not look past a character that fails the test. -/
theorem takeWhile_append_stop (p : Char → Bool) (x : Char) (m : List Char) (hx : p x = false) :
    ∀ l : List Char, (l ++ x :: m).takeWhile p = l.takeWhile p := by
  intro l
  induction l with
  | nil => simp [List.takeWhile, hx]
  | cons a l ih =>
    by_cases ha : p a = true
    · simp [List.takeWhile, ha, ih]
    · simp [List.takeWhile, ha]

/-- Helper: `dropWhile` keeps what follows a character that fails the test. -/
theorem dropWhile_append_stop (p : Char → Bool) (x : Char) (m : List Char) (hx : p x = false) :
    ∀ l : List Char, (l ++ x :: m).dropWhile p = l.dropWhile p ++ x :: m := by
  intro l
  induction l with
  | nil => simp [List.dropWhile, hx]
  | cons a l ih =>
    by_cases ha : p a = true
    · simp [List.dropWhile, ha, ih]
    · simp [List.dropWhile, ha]

/-- Helper: `dropWhile` of an append when the first part is not used up. -/
theorem dropWhile_append_cons (p : Char → Bool) (m : List Char) (c : Char) (t : List Char) :
    ∀ l : List Char, l.dropWhile p = c :: t → (l ++ m).dropWhile p = c :: t ++ m := by
  intro l
  induction l with
  | nil => intro h; simp at h
  | cons a l ih =>
    intro h
    by_cases ha : p a = true
    · simp only [List.cons_append, List.dropWhile_cons, ha, if_true] at h ⊢
      exact ih h
    · have hf : p a = false := by simpa using ha
      simp only [List.cons_append, List.dropWhile_cons, hf, Bool.false_eq_true, if_false] at h ⊢
      rw [← List.cons_append, h]
      rfl

/-- Helper: `dropWhile` of an append when the first part is used up. -/
theorem dropWhile_append_nil (p : Char → Bool) (m : List Char) :
    ∀ l : List Char, l.dropWhile p = [] → (l ++ m).dropWhile p = m.dropWhile p := by
  intro l
  induction l with
  | nil => intro _; rfl
  | cons a l ih =>
    intro h
    by_cases ha : p a = true
    · simp only [List.cons_append, List.dropWhile_cons, ha, if_true] at h ⊢
      exact ih h
    · simp [List.dropWhile, ha] at h

/-- Helper: the first character `dropWhile` leaves fails the test. -/
theorem dropWhile_head (p : Char → Bool) (x : Char) (b : List Char) :
    ∀ l : List Char, l.dropWhile p = x :: b → p x = false := by
  intro l
  induction l with
  | nil => intro h; simp at h
  | cons a l ih =>
    intro h
    by_cases ha : p a = true
    · simp only [List.dropWhile, ha] at h
      exact ih h
    · simp only [List.dropWhile, ha, List.cons.injEq] at h
      rw [← h.1]
      simpa using ha

/-- Helper: `takeWhile` of an append when the first part is not used up. -/
theorem takeWhile_append_cons (p : Char → Bool) (m : List Char) (c : Char) (t : List Char) :
    ∀ l : List Char, l.dropWhile p = c :: t → (l ++ m).takeWhile p = l.takeWhile p := by
  intro l
  induction l with
  | nil => intro h; simp at h
  | cons a l ih =>
    intro h
    by_cases ha : p a = true
    · simp only [List.cons_append, List.dropWhile_cons, List.takeWhile_cons, ha, if_true] at h ⊢
      rw [ih h]
    · simp [List.takeWhile, ha]

/-- Helper: `takeWhile` of an append when the first part is used up. -/
theorem takeWhile_append_nil (p : Char → Bool) (m : List Char) :
    ∀ l : List Char, l.dropWhile p = [] → (l ++ m).takeWhile p = l ++ m.takeWhile p := by
  intro l
  induction l with
  | nil => intro _; rfl
  | cons a l ih =>
    intro h
    by_cases ha : p a = true
    · simp only [List.cons_append, List.dropWhile_cons, List.takeWhile_cons, ha, if_true] at h ⊢
      rw [ih h]
    · simp [List.dropWhile, ha] at h

/-- Helper: two `takeWhile` commute. -/
theorem takeWhile_comm (p q : Char → Bool) :
    ∀ l : List Char, (l.takeWhile p).takeWhile q = (l.takeWhile q).takeWhile p := by
  intro l
  induction l with
  | nil => rfl
  | cons a l ih =>
    by_cases hp : p a = true <;> by_cases hq : q a = true <;>
      simp [List.takeWhile, hp, hq, ih]

/-- Helper: what follows the optional sign, on a longer input. -/
theorem signBody_append (c : Char) (t m : List Char) :
    signBody c (t ++ m) = signBody c t ++ m := by
  unfold signBody
  split <;> rfl

/-- Helper: a number scanned before a character that is no digit is scanned the
same on the longer input, which is left over after it. -/
theorem scanNumber_append (c : Char) (t : List Char) (x : Char) (b : List Char)
    (hd : isdigit x = false) :
    scanNumber c (t ++ x :: b)
      = match scanNumber c t with
        | ScanResult.converted v r => ScanResult.converted v (r ++ x :: b)
        | ScanResult.inputFailure => ScanResult.inputFailure
        | ScanResult.matchingFailure => ScanResult.matchingFailure := by
  unfold scanNumber
  rw [signBody_append, takeWhile_append_stop isdigit x b hd,
    dropWhile_append_stop isdigit x b hd]
  split <;> rfl

/-- Helper: a conversion is not changed by more input after a character that is
no digit. -/
theorem scanInt_append_converted (t : List Char) (x : Char) (b : List Char)
    (hd : isdigit x = false) (v : Int) (r : List Char)
    (h : scanInt t = ScanResult.converted v r) :
    scanInt (t ++ x :: b) = ScanResult.converted v (r ++ x :: b) := by
  unfold scanInt at h ⊢
  cases hdw : t.dropWhile isspace with
  | nil => rw [hdw] at h; exact absurd h (by simp)
  | cons c t1 =>
    rw [hdw] at h
    simp only at h
    rw [dropWhile_append_cons isspace (x :: b) c t1 t hdw]
    simp only [List.cons_append]
    rw [scanNumber_append c t1 x b hd, h]

/-- Helper: a failed conversion stays failed when the input goes on with a
character that is no digit and no sign, and that is either no white space or the
last one. -/
theorem scanInt_append_failed (t : List Char) (x : Char) (b : List Char)
    (hd : isdigit x = false) (hsign : ¬ (x = '-' ∨ x = '+'))
    (hb : isspace x = false ∨ b = [])
    (h : ∀ v r, scanInt t ≠ ScanResult.converted v r) :
    ∀ v r, scanInt (t ++ x :: b) ≠ ScanResult.converted v r := by
  intro v r
  unfold scanInt at h ⊢
  cases hdw : t.dropWhile isspace with
  | nil =>
    rw [dropWhile_append_nil isspace (x :: b) t hdw]
    by_cases hx : isspace x = true
    · have hbn : b = [] := by
        rcases hb with hb | hb
        · rw [hb] at hx; exact absurd hx (by simp)
        · exact hb
      subst hbn
      simp [List.dropWhile, hx]
    · have hxf : isspace x = false := by simpa using hx
      simp only [List.dropWhile_cons, hxf, Bool.false_eq_true, if_false]
      unfold scanNumber signBody
      simp [hsign, List.takeWhile, hd]
  | cons c t1 =>
    rw [hdw] at h
    simp only at h
    rw [dropWhile_append_cons isspace (x :: b) c t1 t hdw]
    simp only [List.cons_append]
    rw [scanNumber_append c t1 x b hd]
    cases hs : scanNumber c t1 with
    | inputFailure => simp
    | matchingFailure => simp
    | converted v1 r1 => exact absurd hs (h v1 r1)

/-- Helper: the leading integers do not see what follows such a character. -/
theorem scannedInts_append (x : Char) (b : List Char)
    (hd : isdigit x = false) (hsign : ¬ (x = '-' ∨ x = '+'))
    (hb : isspace x = false ∨ b = []) (n : Nat) :
    ∀ t : List Char, scannedInts n (t ++ x :: b) = scannedInts n t := by
  induction n with
  | zero => intro _; rfl
  | succ n ih =>
    intro t
    cases h : scanInt t with
    | converted v r =>
      simp only [scannedInts, h, scanInt_append_converted t x b hd v r h, ih r]
    | inputFailure =>
      have hf := scanInt_append_failed t x b hd hsign hb (by rw [h]; simp)
      cases h2 : scanInt (t ++ x :: b) with
      | converted v r => exact absurd h2 (hf v r)
      | inputFailure => simp only [scannedInts, h, h2]
      | matchingFailure => simp only [scannedInts, h, h2]
    | matchingFailure =>
      have hf := scanInt_append_failed t x b hd hsign hb (by rw [h]; simp)
      cases h2 : scanInt (t ++ x :: b) with
      | converted v r => exact absurd h2 (hf v r)
      | inputFailure => simp only [scannedInts, h, h2]
      | matchingFailure => simp only [scannedInts, h, h2]

/-- Helper: scanning stops at the NUL that ends a C string. -/
theorem scannedInts_cchars (n : Nat) (s : List Char) :
    scannedInts n (cchars s) = scannedInts n s := by
  unfold cchars
  cases hdw : s.dropWhile (fun c => c != NUL) with
  | nil =>
    have := List.takeWhile_append_dropWhile (fun c => c != NUL) s
    rw [hdw, List.append_nil] at this
    rw [this]
  | cons x b =>
    have hx := dropWhile_head (fun c => c != NUL) x b s hdw
    have hxn : x = NUL := by simpa using hx
    have hs := List.takeWhile_append_dropWhile (fun c => c != NUL) s
    rw [hdw] at hs
    conv => rhs; rw [← hs]
    subst hxn
    exact (scannedInts_append NUL b (by decide) (by decide) (Or.inl (by decide)) n _).symm

/-- Helper: the buffer `fgets` fills for a line and its newline scans like the
line itself cut at its first `#`. -/
theorem scannedInts_buffer (n : Nat) (line : List Char) :
    scannedInts n ((cchars (line ++ [NL])).takeWhile (fun c => c != '#'))
      = scannedInts n (line.takeWhile (fun c => c != '#')) := by
  unfold cchars
  rw [takeWhile_comm (fun c => c != NUL) (fun c => c != '#')]
  have hc := scannedInts_cchars n ((line ++ [NL]).takeWhile (fun c => c != '#'))
  unfold cchars at hc
  rw [hc]
  cases hdw : line.dropWhile (fun c => c != '#') with
  | nil =>
    rw [takeWhile_append_nil (fun c => c != '#') [NL] line hdw]
    have hl := List.takeWhile_append_dropWhile (fun c => c != '#') line
    rw [hdw, List.append_nil] at hl
    rw [hl]
    have hnl : [NL].takeWhile (fun c => c != '#') = [NL] := by decide
    rw [hnl]
    exact scannedInts_append NL [] (by decide) (by decide) (Or.inr rfl) n line
  | cons x b =>
    rw [takeWhile_append_cons (fun c => c != '#') [NL] x b line hdw]

/-- Helper: `fgets` returns a short line together with its newline. -/
theorem fgetsChars_line (rest : List Char) : ∀ (line : List Char) (n : Nat),
    NL ∉ line → line.length < n →
    fgetsChars n (line ++ NL :: rest) = (line ++ [NL], rest) := by
  intro line
  induction line with
  | nil =>
    intro n _ hn
    cases n with
    | zero => simp at hn
    | succ n => simp [fgetsChars]
  | cons a line ih =>
    intro n hnl hn
    cases n with
    | zero => simp at hn
    | succ n =>
      have ha : a ≠ NL := fun h => hnl (by simp [h])
      have ht : NL ∉ line := fun h => hnl (by simp [h])
      have e := ih n ht (by simpa using hn)
      rw [List.cons_append, fgetsChars, if_neg ha, e]
      rfl

/-- Helper: the read loop over a file of short lines, with enough iterations. -/
theorem readDeadPixels_lines (width height : Nat) (hw : width < 2147483648)
    (hh : height < 2147483648) : ∀ (lines : List (List Char)) (fuel : Nat) (vars : ScanVars),
    (∀ l ∈ lines, l.length < 127 ∧ NL ∉ l) → lines.length < fuel →
    readDeadPixels width height fuel (joinLines lines) vars
      = lines.flatMap (fun l =>
          pointOf width height (scannedInts 2 (l.takeWhile (fun c => c != '#')))) := by
  intro lines
  induction lines with
  | nil =>
    intro fuel vars _ hf
    cases fuel with
    | zero => simp at hf
    | succ fuel => simp [readDeadPixels, joinLines, fgets]
  | cons l ls ih =>
    intro fuel vars hl hf
    cases fuel with
    | zero => simp at hf
    | succ fuel =>
      have hj : joinLines (l :: ls) = l ++ NL :: joinLines ls := by
        simp [joinLines]
      have hne : ¬ (l ++ NL :: joinLines ls = []) := by simp
      obtain ⟨hlen, hnl⟩ := hl l (by simp)
      have hg : fgets 128 (l ++ NL :: joinLines ls) = some (l ++ [NL], joinLines ls) := by
        unfold fgets
        rw [if_neg hne, fgetsChars_line (joinLines ls) l 127 hnl hlen]
      rw [hj, readDeadPixels, hg]
      simp only []
      rw [deadPixelStep_points width height hw hh, scannedInts_buffer,
        ih fuel _ (fun l2 h2 => hl l2 (by simp [h2])) (by simpa using hf)]
      simp [specLine]

/-- Helper: each `%d` converts the next leading integer of the text, clamped to a
`long` and cut to the 32 bits of an `int`. -/
theorem scannedInts_leadingInts (n : Nat) : ∀ s : List Char,
    scannedInts n s = (leadingInts n s).map (fun v => toInt32 (strtolValue v)) := by
  induction n with
  | zero => intro s; rfl
  | succ n ih =>
    intro s
    simp only [scannedInts, leadingInts, scanInt, leadingInt]
    cases hd : s.dropWhile isspace with
    | nil => simp
    | cons c t =>
      simp only [scanNumber]
      by_cases hz : (signBody c t).takeWhile isdigit = []
      · simp [hz]
      · simp [hz, ih]

/-- Helper: an integer in the range of `int` is stored as it is. -/
theorem toInt32_strtolValue (v : Int) (h : -2147483648 ≤ v ∧ v < 2147483648) :
    toInt32 (strtolValue v) = v := by
  unfold toInt32 strtolValue
  split
  · omega
  · split <;> omega

/-- Helper: leading integers in the range of `int` are scanned exactly. -/
theorem scannedInts_exact (n : Nat) (s : List Char)
    (h : ∀ v ∈ leadingInts n s, -2147483648 ≤ v ∧ v < 2147483648) :
    scannedInts n s = leadingInts n s := by
  rw [scannedInts_leadingInts]
  have : ∀ v ∈ leadingInts n s, (fun v => toInt32 (strtolValue v)) v = id v :=
    fun v hv => toInt32_strtolValue v (h v hv)
  rw [List.map_congr_left this, List.map_id]

/-- C5 fails on the code, bounds 100×100: the line `4294967299 5` is shorter than
the read buffer and its first integer is too large for the width, so the claim
gives it no point; `%d` stores the low 32 bits of the number, 3, in `col`, the
range test passes and the loop adds the point (row 5, col 3). The three lines
the claim names behave as claimed, a sign is accepted (`+3 +4` gives (row 4,
col 3), `-1 2` nothing), a line with one integer adds nothing even when `row`
still holds an earlier value, and a number beyond the range of `long` is stored
as -1 and gives nothing. -/
theorem deadPixelList_wide_numeral :
    "4294967299 5".toList.length < 127 ∧
    leadingInts 2 "4294967299 5".toList = [4294967299, 5] ∧
    specLine 100 100 "4294967299 5".toList = [] ∧
    fgets 128 (joinLines ["4294967299 5".toList])
      = some ("4294967299 5".toList ++ [NL], []) ∧
    sscanf_d_d_d "4294967299 5".toList ⟨0, 0, 0⟩ = (2, ⟨3, 5, 0⟩) ∧
    deadPixelList 100 100 (joinLines ["4294967299 5".toList]) ⟨0, 0, 0⟩ = [⟨5, 3⟩] ∧
    deadPixelList 100 100 (joinLines ["12 34 99 # note".toList]) ⟨0, 0, 0⟩ = [⟨34, 12⟩] ∧
    deadPixelList 100 100 (joinLines ["500 500 1".toList]) ⟨0, 0, 0⟩ = [] ∧
    deadPixelList 100 100 (joinLines ["5".toList]) ⟨0, 0, 0⟩ = [] ∧
    deadPixelList 100 100 (joinLines ["3 4".toList, "5".toList]) ⟨0, 0, 0⟩ = [⟨4, 3⟩] ∧
    deadPixelList 100 100 (joinLines ["+3 +4".toList]) ⟨0, 0, 0⟩ = [⟨4, 3⟩] ∧
    deadPixelList 100 100 (joinLines ["-1 2".toList]) ⟨0, 0, 0⟩ = [] ∧
    sscanf_d_d_d "18446744073709551619 5".toList ⟨0, 0, 0⟩ = (2, ⟨-1, 5, 0⟩) ∧
    deadPixelList 100 100 (joinLines ["18446744073709551619 5".toList]) ⟨0, 0, 0⟩ = [] := by
  decide

/-- One line read by the loop. For image bounds that fit a `dng_rect` and a line
shorter than the 128-byte buffer, `fgets` returns the line with its newline, and
the body of the loop adds, whatever `col`, `row` and `time` held before, the
point of the first two leading integers of the line cut at its first `#`, each
taken as `%d` stores it (clamped to a `long`, then cut to 32 bits): the point
(row, col) when both are there with 0 ≤ col < width and 0 ≤ row < height,
nothing otherwise. When these integers are in the range of `int` this is the
contribution the specification words; a third integer is never looked at. -/
theorem deadPixelStep_line (width height : Nat) (hw : width < 2147483648)
    (hh : height < 2147483648) (line rest : List Char) (vars : ScanVars)
    (hlen : line.length < 127) (hnl : NL ∉ line) :
    fgets 128 (line ++ NL :: rest) = some (line ++ [NL], rest) ∧
    (deadPixelStep width height (line ++ [NL]) vars).1
      = pointOf width height
          ((leadingInts 2 (line.takeWhile (fun c => c != '#'))).map
            (fun v => toInt32 (strtolValue v))) ∧
    ((∀ v ∈ leadingInts 2 (line.takeWhile (fun c => c != '#')),
        -2147483648 ≤ v ∧ v < 2147483648) →
      (deadPixelStep width height (line ++ [NL]) vars).1 = specLine width height line) := by
  have hne : ¬ (line ++ NL :: rest = []) := by simp
  refine ⟨?_, ?_, ?_⟩
  · unfold fgets
    rw [if_neg hne, fgetsChars_line rest line 127 hnl hlen]
  · rw [deadPixelStep_points width height hw hh, scannedInts_buffer, scannedInts_leadingInts]
  · intro h
    rw [deadPixelStep_points width height hw hh, scannedInts_buffer,
      scannedInts_exact 2 _ h]
    rfl

/-- Witness of the line theorem: bounds 100×100, line `12 34 99 # note`. -/
theorem deadPixelStep_line_witness :
    (deadPixelStep 100 100 ("12 34 99 # note".toList ++ [NL]) ⟨0, 0, 0⟩).1 = [⟨34, 12⟩] :=
  ((deadPixelStep_line 100 100 (by decide) (by decide) "12 34 99 # note".toList []
      ⟨0, 0, 0⟩ (by decide) (by decide)).2.2 (by decide)).trans (by decide)

/-- The whole file, in order. For image bounds that fit a `dng_rect` (32-bit
signed coordinates) and a file whose lines are all shorter than the 128-byte
read buffer, the points of the bad pixel list are the contributions of the
lines in the order of the lines, each line contributing as in
`deadPixelStep_line`; when the first two leading integers of every line are in
the range of `int`, the list is the one the specification words. -/
theorem deadPixelList_lines (width height : Nat) (hw : width < 2147483648)
    (hh : height < 2147483648) (lines : List (List Char)) (vars : ScanVars)
    (hshort : ∀ l ∈ lines, l.length < 127 ∧ NL ∉ l) :
    deadPixelList width height (joinLines lines) vars
      = lines.flatMap (fun line =>
          pointOf width height
            ((leadingInts 2 (line.takeWhile (fun c => c != '#'))).map
              (fun v => toInt32 (strtolValue v)))) ∧
    ((∀ l ∈ lines, ∀ v ∈ leadingInts 2 (l.takeWhile (fun c => c != '#')),
        -2147483648 ≤ v ∧ v < 2147483648) →
      deadPixelList width height (joinLines lines) vars
        = lines.flatMap (specLine width height)) := by
  have hlen : lines.length < (joinLines lines).length + 1 := by
    have : ∀ ls : List (List Char), ls.length ≤ (joinLines ls).length := by
      intro ls
      induction ls with
      | nil => simp
      | cons a ls ih =>
        have hj : joinLines (a :: ls) = a ++ NL :: joinLines ls := by simp [joinLines]
        rw [hj]
        simp only [List.length_cons, List.length_append]
        omega
    have := this lines
    omega
  have hrun := readDeadPixels_lines width height hw hh lines _ vars hshort hlen
  constructor
  · unfold deadPixelList
    rw [hrun]
    simp only [scannedInts_leadingInts]
  · intro hr
    unfold deadPixelList
    rw [hrun]
    simp only [List.flatMap]
    congr 1
    apply List.map_congr_left
    intro l hl
    rw [scannedInts_exact 2 _ (hr l hl)]
    rfl

/-- Witness of the file theorem: with bounds 100×100 the lines `12 34 99 # note`,
`500 500 1` and `5` give the single point (row 34, col 12). -/
theorem deadPixelList_lines_witness :
    deadPixelList 100 100
      (joinLines ["12 34 99 # note".toList, "500 500 1".toList, "5".toList]) ⟨0, 0, 0⟩
      = [⟨34, 12⟩] :=
  ((deadPixelList_lines 100 100 (by decide) (by decide)
      ["12 34 99 # note".toList, "500 500 1".toList, "5".toList] ⟨0, 0, 0⟩
      (by decide)).2 (by decide)).trans (by decide)

/-! ### Dead pixel block -/

/-- Helper: the classification is always defined, and it is Bayer exactly when the
local `bayerPhase` left its initial 0xFFFFFFFF, the phase being that value. -/
theorem classifyMosaic_bayerPhase (ptrBytes channels filters : Nat) (makeName : List Char) :
    ∃ st, classifyMosaic ptrBytes channels makeName filters = some st ∧
      ((st.bayerPhase ≠ 0xFFFFFFFF ∧ st.mosaic = MosaicClassification.Bayer st.bayerPhase) ∨
       (st.bayerPhase = 0xFFFFFFFF ∧ ∀ p, st.mosaic ≠ MosaicClassification.Bayer p)) := by
  unfold classifyMosaic
  by_cases hc : channels = 4
  · exact ⟨⟨0xFFFFFFFF, MosaicClassification.QuadColor filters⟩, by simp [hc],
      Or.inr ⟨rfl, by simp⟩⟩
  · obtain ⟨r, hr, _⟩ := memcmp_FUJIFILM ptrBytes makeName
    simp only [hc, if_false, hr]
    by_cases h0 : r = 0
    · exact ⟨⟨0xFFFFFFFF, MosaicClassification.FujiDiagonal 0⟩, by simp [h0],
        Or.inr ⟨rfl, by simp⟩⟩
    · by_cases hb : bayerPhaseOf filters = 0xFFFFFFFF
      · exact ⟨⟨bayerPhaseOf filters, MosaicClassification.None⟩, by simp [h0, hb],
          Or.inr ⟨hb, by simp⟩⟩
      · exact ⟨⟨bayerPhaseOf filters, MosaicClassification.Bayer (bayerPhaseOf filters)⟩,
          by simp [h0, hb], Or.inl ⟨hb, rfl⟩⟩

/-- C6: when a dead pixel list is requested, `main` gets past the dead pixel block,
with one bad-pixel opcode that carries the classified Bayer phase, exactly when the
classification is Bayer and the file opens; for every other classification (None,
QuadColor whatever the filter code, FujiDiagonal) or a file that does not open,
`main` returns status 1 and never reaches `WriteDNG`. -/
theorem deadPixelStage_bayer_only (ptrBytes channels filters width height : Nat)
    (makeName : List Char) (fp : Option (List Char)) (vars : ScanVars) :
    ∃ st, classifyMosaic ptrBytes channels makeName filters = some st ∧
      ((∃ p text, st.mosaic = MosaicClassification.Bayer p ∧ fp = some text ∧
          deadPixelStage st.bayerPhase width height (some fp) vars
            = DefectStage.proceeds [⟨deadPixelList width height text vars, p⟩] ∧
          reachesWriteDNG (deadPixelStage st.bayerPhase width height (some fp) vars) = true) ∨
       (((∀ p, st.mosaic ≠ MosaicClassification.Bayer p) ∨ fp = none) ∧
          deadPixelStage st.bayerPhase width height (some fp) vars = DefectStage.returns 1 ∧
          reachesWriteDNG (deadPixelStage st.bayerPhase width height (some fp) vars)
            = false)) := by
  obtain ⟨st, hst, h⟩ := classifyMosaic_bayerPhase ptrBytes channels filters makeName
  refine ⟨st, hst, ?_⟩
  rcases h with ⟨hne, hm⟩ | ⟨he, hm⟩
  · cases fp with
    | none =>
      right
      simp [deadPixelStage, hne, reachesWriteDNG]
    | some text =>
      left
      exact ⟨st.bayerPhase, text, hm, rfl, by simp [deadPixelStage, hne],
        by simp [deadPixelStage, hne, reachesWriteDNG]⟩
  · right
    exact ⟨Or.inl hm, by simp [deadPixelStage, he], by simp [deadPixelStage, he, reachesWriteDNG]⟩

/-! ### Geometry -/

/-- Counterexample to C7 as stated: with flip code 6 (mapped to rotate-90-CW), raw
width 6000 and raw height 4000, `adjust_sizes_info_only` exchanges the sizes
and the test for the codes 5 and 6 exchanges them back: finalSize is 6000 wide
and 4000 high, not 4000 wide and 6000 high. -/
theorem m_FinalSize_rotate_counterexample :
    baseOrientation 6 = dng_orientation.Rotate90CW ∧
    adjust_sizes_info_only 6 6000 4000 = (4000, 6000) ∧
    (m_FinalSize 6 6000 4000).W = 6000 ∧ (m_FinalSize 6 6000 4000).H = 4000 ∧
    ¬ ((m_FinalSize 6 6000 4000).W = 4000 ∧ (m_FinalSize 6 6000 4000).H = 6000) := by
  decide

/-- C7 (amended): for raw width `iwidth` and raw height `iheight` (16-bit values,
square pixels, no Fuji rotation width) and a flip code from 0 to 7. Flip codes 5
and 6 are the ones mapped to a 90° rotation (5 to rotate-90-CCW, 6 to
rotate-90-CW), 3 is mapped to rotate-180 and every other code to normal.
Relative to the sizes read at line 50 (those `adjust_sizes_info_only` left) the
rectangle has the two sizes exchanged for the codes 5 and 6 and not otherwise.
Relative to the raw sizes finalSize is width = raw width, height = raw height
for the codes 5 and 6 and for the codes 0 to 3 (so for rotate-180 too); only
the codes 4 and 7 (mapped to normal) give width = raw height, height = raw
width. -/
theorem m_FinalSize_raw (flip : Int) (iwidth iheight : Nat)
    (hcode : 0 ≤ flip ∧ flip ≤ 7) (hw : iwidth < 65536) (hh : iheight < 65536) :
    (baseOrientation 5 = dng_orientation.Rotate90CCW ∧
      baseOrientation 6 = dng_orientation.Rotate90CW ∧
      baseOrientation 3 = dng_orientation.Rotate180 ∧
      (flip ≠ 3 → flip ≠ 5 → flip ≠ 6 → baseOrientation flip = dng_orientation.Normal)) ∧
    ((flip = 5 ∨ flip = 6) ↔
      (baseOrientation flip = dng_orientation.Rotate90CCW ∨
        baseOrientation flip = dng_orientation.Rotate90CW)) ∧
    ((flip = 5 ∨ flip = 6) →
      (FinalSize flip iwidth iheight).W = iheight ∧
      (FinalSize flip iwidth iheight).H = iwidth) ∧
    (¬ (flip = 5 ∨ flip = 6) →
      (FinalSize flip iwidth iheight).W = iwidth ∧
      (FinalSize flip iwidth iheight).H = iheight) ∧
    ((flip = 5 ∨ flip = 6) →
      (m_FinalSize flip iwidth iheight).W = iwidth ∧
      (m_FinalSize flip iwidth iheight).H = iheight) ∧
    (flip ≤ 3 →
      (m_FinalSize flip iwidth iheight).W = iwidth ∧
      (m_FinalSize flip iwidth iheight).H = iheight) ∧
    ((flip = 4 ∨ flip = 7) →
      (m_FinalSize flip iwidth iheight).W = iheight ∧
      (m_FinalSize flip iwidth iheight).H = iwidth) := by
  have hWH : ∀ a b : Nat, a < 65536 → b < 65536 →
      (dng_rect.ofSize a b).W = b ∧ (dng_rect.ofSize a b).H = a := by
    intro a b ha hb
    simp only [dng_rect.ofSize, dng_rect.W, dng_rect.H, u32]
    constructor <;> split <;> omega
  refine ⟨⟨by decide, by decide, by decide, ?_⟩, ?_, ?_, ?_, ?_, ?_, ?_⟩
  · intro h3 h5 h6
    simp [baseOrientation, h3, h5, h6]
  · unfold baseOrientation
    constructor
    · rintro (h | h) <;> subst h <;> simp
    · intro h
      by_cases h3 : flip = 3
      · subst h3; simp at h
      by_cases h5 : flip = 5
      · exact Or.inl h5
      by_cases h6 : flip = 6
      · exact Or.inr h6
      · simp [h3, h5, h6] at h
  · intro h
    unfold FinalSize
    rw [if_pos h]
    exact hWH iwidth iheight hw hh
  · intro h
    unfold FinalSize
    rw [if_neg h]
    exact hWH iheight iwidth hh hw
  · intro h
    have h4 : 4 ≤ flip % 8 := by rcases h with h | h <;> subst h <;> decide
    unfold m_FinalSize adjust_sizes_info_only FinalSize
    rw [if_pos h4, if_pos h]
    exact hWH iheight iwidth hh hw
  · intro h3
    have h5 : ¬ (flip = 5 ∨ flip = 6) := by omega
    have h4' : ¬ (4 ≤ flip % 8) := by omega
    unfold m_FinalSize adjust_sizes_info_only FinalSize
    rw [if_neg h4', if_neg h5]
    exact hWH iheight iwidth hh hw
  · intro h47
    have h4 : 4 ≤ flip % 8 := by omega
    have h56 : ¬ (flip = 5 ∨ flip = 6) := by omega
    unfold m_FinalSize adjust_sizes_info_only FinalSize
    rw [if_pos h4, if_neg h56]
    exact hWH iwidth iheight hw hh

/-- Witness of C7 (amended): flip code 6 on a frame of raw width 6000 and raw
height 4000. -/
theorem m_FinalSize_raw_witness :
    (m_FinalSize 6 6000 4000).W = 6000 ∧ (m_FinalSize 6 6000 4000).H = 4000 :=
  (m_FinalSize_raw 6 6000 4000 (by decide) (by decide) (by decide)).2.2.2.2.1 (Or.inr rfl)

/-- Helper: `strcmp` is zero exactly on equal C strings. -/
theorem strcmpChars_eq_zero : ∀ (a b : List Char), strcmpChars a b = 0 ↔ a = b := by
  intro a
  induction a with
  | nil =>
    intro b
    cases b with
    | nil => simp [strcmpChars]
    | cons y ys => simp [strcmpChars]
  | cons x xs ih =>
    intro b
    cases b with
    | nil => simp [strcmpChars]
    | cons y ys =>
      by_cases hxy : x = y
      · subst hxy
        simp [strcmpChars, ih ys]
      · simp only [strcmpChars, hxy, if_false, List.cons.injEq, false_and, iff_false]
        split <;> simp

/-- Counterexample to C8 as stated: a Canon frame with three channels and the
Bayer code 0xe1e1e1e1 is classified Bayer, not QuadColor, yet its active area
starts at the top and left margins (10, 20) instead of being the full raw bounds;
and a four-channel (QuadColor) frame of another vendor with the same non-zero
margins gets the full raw bounds. -/
theorem ActiveArea_counterexample :
    ((classifyMosaic 8 3 "Canon".toList 0xe1e1e1e1).map MosaicState.mosaic
        = some (MosaicClassification.Bayer 0) ∧
      ActiveArea "Canon".toList 0xe1e1e1e1 10 20 3000 4000 10 20
        = ⟨10, 20, 2990, 3980⟩ ∧
      ActiveArea "Canon".toList 0xe1e1e1e1 10 20 3000 4000 10 20 ≠ ⟨0, 0, 3000, 4000⟩) ∧
    ((classifyMosaic 8 4 "SONY".toList 0xe1e1e1e1).map MosaicState.mosaic
        = some (MosaicClassification.QuadColor 0xe1e1e1e1) ∧
      ActiveArea "SONY".toList 0xe1e1e1e1 10 20 3000 4000 10 20 = ⟨0, 0, 3000, 4000⟩ ∧
      ActiveArea "SONY".toList 0xe1e1e1e1 10 20 3000 4000 10 20 ≠ ⟨10, 20, 2990, 3980⟩) := by
  decide

/-- C8 (amended): if the vendor name is exactly `Canon` and the filter code is
non-zero, the active area has top = top margin and left = left margin; in every
other case, whatever the margins and the mosaic variant, the active area is the
full raw bounds (0, 0, raw height, raw width). -/
theorem ActiveArea_canon_only (make : List Char) (filters top_margin left_margin iheight
    iwidth m_bottom_margin m_right_margin : Nat) :
    ((cchars make = "Canon".toList ∧ filters ≠ 0) →
      (ActiveArea make filters top_margin left_margin iheight iwidth m_bottom_margin
        m_right_margin).t = top_margin ∧
      (ActiveArea make filters top_margin left_margin iheight iwidth m_bottom_margin
        m_right_margin).l = left_margin) ∧
    (¬ (cchars make = "Canon".toList ∧ filters ≠ 0) →
      ActiveArea make filters top_margin left_margin iheight iwidth m_bottom_margin
        m_right_margin = ⟨0, 0, iheight, iwidth⟩) := by
  have hs : strcmp make "Canon".toList = 0 ↔ cchars make = "Canon".toList := by
    unfold strcmp
    rw [strcmpChars_eq_zero]
    have : cchars "Canon".toList = "Canon".toList := by decide
    rw [this]
  constructor
  · intro h
    have hc : strcmp make "Canon".toList = 0 ∧ filters ≠ 0 := ⟨hs.mpr h.1, h.2⟩
    simp only [ActiveArea, if_pos hc, and_self]
  · intro h
    have hc : ¬ (strcmp make "Canon".toList = 0 ∧ filters ≠ 0) :=
      fun hc => h ⟨hs.mp hc.1, hc.2⟩
    simp only [ActiveArea, if_neg hc, dng_rect.ofSize]

/-! ### Calibration -/

/-- Helper: entry `i` of the vector the constructor builds. -/
theorem CameraNeutral_entry (colors : Nat) (cam_mul : List real32)
    (hcolors : 1 ≤ colors ∧ colors ≤ 4) :
    CameraNeutral colors cam_mul
      = some ((List.range colors).map (fun i => reciprocal (cam_mul.getD i ⟨false, 0, 0⟩))) ∧
    ∀ i, i < colors →
      ((List.range colors).map (fun i => reciprocal (cam_mul.getD i ⟨false, 0, 0⟩)))[i]?
        = some (reciprocal (cam_mul.getD i ⟨false, 0, 0⟩)) := by
  refine ⟨by simp only [CameraNeutral, if_pos hcolors], ?_⟩
  intro i hi
  rw [List.getElem?_eq_getElem (by simpa using hi)]
  simp only [List.getElem_map, List.getElem_range]

/-- Counterexample to C12 as stated: with three channels and multipliers
(2, 0, 2) the constructor still produces a cameraNeutral vector of three
entries, the one of the zero multiplier being an infinity, and `main` passes
this vector to `SetCameraNeutral`: nothing is aborted. -/
theorem CameraNeutral_zero_counterexample :
    CameraNeutral 3 [⟨false, 1, 1⟩, ⟨false, 0, 0⟩, ⟨false, 1, 1⟩, ⟨false, 0, 0⟩]
      = some [real64.finite false 4503599627370496 (-53), real64.infinity false,
          real64.finite false 4503599627370496 (-53)] ∧
    mainSetCameraNeutral 3 [⟨false, 1, 1⟩, ⟨false, 0, 0⟩, ⟨false, 1, 1⟩, ⟨false, 0, 0⟩]
      = some (NegativeCall.SetCameraNeutral
          [real64.finite false 4503599627370496 (-53), real64.infinity false,
            real64.finite false 4503599627370496 (-53)]) := by
  decide

/-- C12 (amended): for every frame with 1 to 4 channels, whether or not a
white-balance multiplier of a used channel is zero, the constructor tests no
multiplier and produces a cameraNeutral vector with one entry per channel, and
`main` passes exactly this vector to `SetCameraNeutral`; the entry of a non-zero
multiplier is a finite `double` and the entry of a zero multiplier is the
infinity of the sign of the zero, the quotient 1.0 / 0. -/
theorem CameraNeutral_zero_multiplier (colors : Nat) (cam_mul : List real32)
    (hcolors : 1 ≤ colors ∧ colors ≤ 4) :
    ∃ neutral, CameraNeutral colors cam_mul = some neutral ∧
      mainSetCameraNeutral colors cam_mul = some (NegativeCall.SetCameraNeutral neutral) ∧
      neutral.length = colors ∧
      (∀ i, i < colors → (cam_mul.getD i ⟨false, 0, 0⟩).mant = 0 →
        neutral[i]? = some (real64.infinity (cam_mul.getD i ⟨false, 0, 0⟩).neg)) ∧
      (∀ i, i < colors → (cam_mul.getD i ⟨false, 0, 0⟩).mant ≠ 0 →
        ∃ (M : Nat) (e : Int),
          neutral[i]? = some (real64.finite (cam_mul.getD i ⟨false, 0, 0⟩).neg M e)) := by
  obtain ⟨hsome, hentry⟩ := CameraNeutral_entry colors cam_mul hcolors
  refine ⟨_, hsome, ?_, by simp, ?_, ?_⟩
  · simp only [mainSetCameraNeutral, hsome]
  · intro i hi hz
    rw [hentry i hi]
    simp only [reciprocal, if_pos hz]
  · intro i hi hnz
    rw [hentry i hi]
    simp only [reciprocal, if_neg hnz]
    exact ⟨_, _, rfl⟩

/-- Witness of C12: three channels with multipliers (2, 0, 2). -/
theorem CameraNeutral_zero_multiplier_witness :
    ∃ neutral,
      CameraNeutral 3 [⟨false, 1, 1⟩, ⟨false, 0, 0⟩, ⟨false, 1, 1⟩, ⟨false, 0, 0⟩]
        = some neutral ∧
      mainSetCameraNeutral 3 [⟨false, 1, 1⟩, ⟨false, 0, 0⟩, ⟨false, 1, 1⟩, ⟨false, 0, 0⟩]
        = some (NegativeCall.SetCameraNeutral neutral) ∧
      neutral.length = 3 ∧
      neutral[1]? = some (real64.infinity false) := by
  obtain ⟨neutral, h1, h2, h3, h4, _⟩ := CameraNeutral_zero_multiplier 3
    [⟨false, 1, 1⟩, ⟨false, 0, 0⟩, ⟨false, 1, 1⟩, ⟨false, 0, 0⟩] (by decide)
  exact ⟨neutral, h1, h2, h3, h4 1 (by decide) rfl⟩

/-- Helper: the largest entry of an all-zero matrix is zero. -/
theorem MaxEntry_camXYZ_zero (rows : Nat) (cam_xyz : Nat → Nat → ℚ)
    (hz : ∀ i j, i < rows → j < 3 → cam_xyz i j = 0) :
    MaxEntry (camXYZ rows cam_xyz) = 0 := by
  have hrow : camXYZ rows cam_xyz = (List.range rows).map (fun _ => [0, 0, 0]) := by
    unfold camXYZ
    apply List.map_congr_left
    intro i hi
    have hi2 : i < rows := List.mem_range.mp hi
    rw [hz i 0 hi2 (by decide), hz i 1 hi2 (by decide), hz i 2 hi2 (by decide)]
  have hall : ∀ x ∈ (camXYZ rows cam_xyz).flatten, x = 0 := by
    intro x hx
    rw [hrow] at hx
    simp only [List.mem_flatten, List.mem_map] at hx
    obtain ⟨l, ⟨_, _, hl⟩, hxl⟩ := hx
    rw [← hl] at hxl
    simpa using hxl
  have hfold : ∀ (xs : List ℚ) (a : ℚ), a = 0 → (∀ x ∈ xs, x = 0) → xs.foldl max a = 0 := by
    intro xs
    induction xs with
    | nil => intro a ha _; simpa using ha
    | cons y ys ih =>
      intro a ha h
      simp only [List.foldl_cons]
      apply ih
      · rw [ha, h y (by simp)]
        simp
      · intro x hx
        exact h x (by simp [hx])
  unfold MaxEntry
  cases hm : (camXYZ rows cam_xyz).flatten with
  | nil => rfl
  | cons x xs =>
    rw [hm] at hall
    exact hfold xs x (hall x (by simp)) (fun y hy => hall y (by simp [hy]))

/-- C10: a 3-channel frame whose supplied 3×3 camera matrix is all zero gets the
3×3 identity, and a 4-channel frame whose supplied 4×3 matrix is all zero gets the
fixed 4×3 default (zero row, then the identity rows), which is not the zero
matrix and does not depend on the frame. -/
theorem ColorMatrix_zero_fallback (cam_xyz : Nat → Nat → ℚ) :
    ((∀ i j, i < 3 → j < 3 → cam_xyz i j = 0) →
      ColorMatrix 3 cam_xyz = some [[1, 0, 0], [0, 1, 0], [0, 0, 1]]) ∧
    ((∀ i j, i < 4 → j < 3 → cam_xyz i j = 0) →
      ColorMatrix 4 cam_xyz = some [[0, 0, 0], [1, 0, 0], [0, 1, 0], [0, 0, 1]] ∧
      ColorMatrix 4 cam_xyz ≠ some (camXYZ 4 cam_xyz)) := by
  constructor
  · intro hz
    simp only [ColorMatrix, if_true, MaxEntry_camXYZ_zero 3 cam_xyz hz, identity3by3]
  · intro hz
    have h4 : ColorMatrix 4 cam_xyz = some default4by3 := by
      simp [ColorMatrix, MaxEntry_camXYZ_zero 4 cam_xyz hz]
    refine ⟨by rw [h4]; rfl, ?_⟩
    rw [h4]
    intro h
    have h2 : default4by3 = camXYZ 4 cam_xyz := Option.some.inj h
    have h3 : (default4by3.getD 1 []).getD 0 0 = ((camXYZ 4 cam_xyz).getD 1 []).getD 0 0 := by
      rw [h2]
    have h5 : ((camXYZ 4 cam_xyz).getD 1 []).getD 0 0 = cam_xyz 1 0 := by
      simp [camXYZ, List.range, List.range.loop]
    rw [h5, hz 1 0 (by decide) (by decide)] at h3
    simp [default4by3] at h3

/-- Witness of C8: a Canon frame with a non-zero filter code and margins 10, 20. -/
theorem ActiveArea_canon_only_witness :
    (ActiveArea "Canon".toList 0xe1e1e1e1 10 20 3000 4000 0 0).t = 10 ∧
    (ActiveArea "Canon".toList 0xe1e1e1e1 10 20 3000 4000 0 0).l = 20 :=
  (ActiveArea_canon_only "Canon".toList 0xe1e1e1e1 10 20 3000 4000 0 0).1
    ⟨by decide, by decide⟩

/-- Witness of C10: the all-zero `cam_xyz`. -/
theorem ColorMatrix_zero_fallback_witness :
    ColorMatrix 3 (fun _ _ => 0) = some [[1, 0, 0], [0, 1, 0], [0, 0, 1]] ∧
    ColorMatrix 4 (fun _ _ => 0) = some [[0, 0, 0], [1, 0, 0], [0, 1, 0], [0, 0, 1]] :=
  ⟨(ColorMatrix_zero_fallback (fun _ _ => 0)).1 (fun _ _ _ _ => rfl),
    ((ColorMatrix_zero_fallback (fun _ _ => 0)).2 (fun _ _ _ _ => rfl)).1⟩

/-! ### Black and white levels -/

/-- C11: four independent black levels (the values of channels 0, 1, 2, 3) are set
exactly when mosaic information exists and its CFA pattern size is 2 × 2, which
is so for every Bayer classification; in every other case, variant None (no
mosaic information) included, the single call `SetBlackLevel(BlackLevel(0), 0)`
is made with channel 0's value. White levels are set for the four slots 0..3 in
every case. -/
theorem setBlackLevels_policy (mosaic : MosaicClassification) (BlackLevel WhiteLevel : Nat → ℚ) :
    (setBlackLevels mosaic BlackLevel
        = BlackLevelCall.SetQuadBlacks (BlackLevel 0) (BlackLevel 1) (BlackLevel 2)
            (BlackLevel 3)
      ↔ GetMosaicInfo mosaic = some ⟨2, 2⟩) ∧
    (setBlackLevels mosaic BlackLevel = BlackLevelCall.SetBlackLevel (BlackLevel 0) 0
      ↔ GetMosaicInfo mosaic ≠ some ⟨2, 2⟩) ∧
    (∀ phase, GetMosaicInfo (MosaicClassification.Bayer phase) = some ⟨2, 2⟩ ∧
      setBlackLevels (MosaicClassification.Bayer phase) BlackLevel
        = BlackLevelCall.SetQuadBlacks (BlackLevel 0) (BlackLevel 1) (BlackLevel 2)
            (BlackLevel 3)) ∧
    (GetMosaicInfo MosaicClassification.None = none ∧
      setBlackLevels MosaicClassification.None BlackLevel
        = BlackLevelCall.SetBlackLevel (BlackLevel 0) 0) ∧
    setWhiteLevels WhiteLevel
      = [(WhiteLevel 0, 0), (WhiteLevel 1, 1), (WhiteLevel 2, 2), (WhiteLevel 3, 3)] := by
  refine ⟨?_, ?_, fun _ => ⟨rfl, rfl⟩, ⟨rfl, rfl⟩, rfl⟩
  · unfold setBlackLevels
    cases h : GetMosaicInfo mosaic with
    | none => simp
    | some size =>
      by_cases hs : size = ⟨2, 2⟩
      · simp [hs]
      · simp [hs]
  · unfold setBlackLevels
    cases h : GetMosaicInfo mosaic with
    | none => simp
    | some size =>
      by_cases hs : size = ⟨2, 2⟩
      · simp [hs]
      · simp [hs]

/-! ### Geometry without a guard -/

/-- Counterexample to C13 as stated: a frame with a non-zero filter code and an
active area 16 wide and 10 high is not rejected; it gets the crop size (0,
4294967290): a width that is not positive and a wrapped unsigned height. -/
theorem defaultCrop_small_counterexample :
    (dng_rect.ofSize 10 16).W = 16 ∧ (dng_rect.ofSize 10 16).H = 10 ∧
    defaultCrop 0xe1e1e1e1 (dng_rect.ofSize 10 16) = ⟨8, 8, 0, 4294967290⟩ := by
  decide

/-- C13 (amended): no frame is rejected at the geometry stage. When the 8-pixel
border is excluded (filter code non-zero) the crop size handed on is the
active-area size minus 16 in unsigned 32-bit arithmetic, in each axis: positive
and equal to size - 16 when the size exceeds 16, 0 when the size is 16, and the
wrapped value size + 2^32 - 16 when the size is below 16. -/
theorem defaultCrop_unguarded (filters : Nat) (a : dng_rect) (hf : filters ≠ 0) :
    ((16 < a.W → 0 < (defaultCrop filters a).sizeH ∧ (defaultCrop filters a).sizeH + 16 = a.W) ∧
      (a.W = 16 → (defaultCrop filters a).sizeH = 0) ∧
      (a.W < 16 → (defaultCrop filters a).sizeH = a.W + 4294967280)) ∧
    ((16 < a.H → 0 < (defaultCrop filters a).sizeV ∧ (defaultCrop filters a).sizeV + 16 = a.H) ∧
      (a.H = 16 → (defaultCrop filters a).sizeV = 0) ∧
      (a.H < 16 → (defaultCrop filters a).sizeV = a.H + 4294967280)) := by
  have hlt := dng_rect_W_H_lt a
  have hH : (defaultCrop filters a).sizeH = u32 ((a.W : Int) - 16) := by
    simp [defaultCrop, hf]
  have hV : (defaultCrop filters a).sizeV = u32 ((a.H : Int) - 16) := by
    simp [defaultCrop, hf]
  rw [hH, hV]
  unfold u32
  refine ⟨⟨?_, ?_, ?_⟩, ⟨?_, ?_, ?_⟩⟩ <;> intro h <;> omega

/-- Witness of C13: filter code 0xe1e1e1e1 and an active area 16 wide, 10 high. -/
theorem defaultCrop_unguarded_witness :
    (defaultCrop 0xe1e1e1e1 (dng_rect.ofSize 10 16)).sizeH = 0 ∧
    (defaultCrop 0xe1e1e1e1 (dng_rect.ofSize 10 16)).sizeV
      = (dng_rect.ofSize 10 16).H + 4294967280 :=
  ⟨(defaultCrop_unguarded 0xe1e1e1e1 (dng_rect.ofSize 10 16) (by decide)).1.2.1 (by decide),
    (defaultCrop_unguarded 0xe1e1e1e1 (dng_rect.ofSize 10 16) (by decide)).2.2.2 (by decide)⟩

/-- Helper: outside the Canon case the active area is the full raw bounds. -/
theorem ActiveArea_full (make : List Char) (filters top_margin left_margin iheight iwidth
    m_bottom_margin m_right_margin : Nat)
    (h : ¬ (cchars make = "Canon".toList ∧ filters ≠ 0)) :
    ActiveArea make filters top_margin left_margin iheight iwidth m_bottom_margin m_right_margin
      = dng_rect.ofSize iheight iwidth := by
  have hs : strcmp make "Canon".toList = 0 ↔ cchars make = "Canon".toList := by
    unfold strcmp
    rw [strcmpChars_eq_zero]
    have : cchars "Canon".toList = "Canon".toList := by decide
    rw [this]
  have hc : ¬ (strcmp make "Canon".toList = 0 ∧ filters ≠ 0) := fun hc => h ⟨hs.mp hc.1, hc.2⟩
  simp only [ActiveArea, if_neg hc]

/-- Helper: width and height of `dng_rect(h, w)` for 16-bit sizes. -/
theorem ofSize_W_H (h w : Nat) (hh : h < 65536) (hw : w < 65536) :
    (dng_rect.ofSize h w).W = w ∧ (dng_rect.ofSize h w).H = h := by
  simp only [dng_rect.ofSize, dng_rect.W, dng_rect.H, u32]
  constructor <;> split <;> omega

/-- Counterexample to C14 as stated: a frame with flip code 6 (rotate-90-CW), raw
width 6000 and raw height 4000 and no margins has an active area 6000 wide and
4000 high: active width is the raw width, not the raw height. -/
theorem ActiveArea_rotate_counterexample :
    baseOrientation 6 = dng_orientation.Rotate90CW ∧
    (ActiveArea "NIKON".toList 0xe1e1e1e1 0 0 4000 6000 0 0).W = 6000 ∧
    (ActiveArea "NIKON".toList 0xe1e1e1e1 0 0 4000 6000 0 0).H = 4000 ∧
    ¬ ((ActiveArea "NIKON".toList 0xe1e1e1e1 0 0 4000 6000 0 0).W = 4000 ∧
      (ActiveArea "NIKON".toList 0xe1e1e1e1 0 0 4000 6000 0 0).H = 6000) := by
  decide

/-- C14 (amended): the active area does not depend on the orientation: `ActiveArea`
has no flip argument because lines 81-100 never read `sizes.flip`, and the
sizes it reads are those of the second `open_file` and `unpack` (lines 61-73),
which `adjust_sizes_info_only` has not touched. For every frame, rotated by
90° or not, when no margins apply (the vendor is not Canon or the filter code
is 0), active width = raw width and active height = raw height. -/
theorem ActiveArea_never_swapped (make : List Char) (filters top_margin
    left_margin iheight iwidth m_bottom_margin m_right_margin : Nat)
    (hh : iheight < 65536) (hw : iwidth < 65536)
    (hno : ¬ (cchars make = "Canon".toList ∧ filters ≠ 0)) :
    (ActiveArea make filters top_margin left_margin iheight iwidth m_bottom_margin
      m_right_margin).W = iwidth ∧
    (ActiveArea make filters top_margin left_margin iheight iwidth m_bottom_margin
      m_right_margin).H = iheight := by
  rw [ActiveArea_full make filters top_margin left_margin iheight iwidth m_bottom_margin
    m_right_margin hno]
  exact ofSize_W_H iheight iwidth hh hw

/-- Witness of C14: vendor NIKON, raw width 6000, raw height 4000. -/
theorem ActiveArea_never_swapped_witness :
    (ActiveArea "NIKON".toList 0xe1e1e1e1 0 0 4000 6000 0 0).W = 6000 ∧
    (ActiveArea "NIKON".toList 0xe1e1e1e1 0 0 4000 6000 0 0).H = 4000 :=
  ActiveArea_never_swapped "NIKON".toList 0xe1e1e1e1 0 0 4000 6000 0 0 (by decide) (by decide)
    (by decide)

/-! ### Lines longer than the read buffer -/

set_option maxRecDepth 100000 in
/-- C15 fails on the code: for a line of `#`, 126 characters of comment and then
`3 4`, the first `fgets` returns 127 characters and the second the rest of the
comment, `3 4`, which is scanned as a line of its own: with bounds 100 × 100 the
file gives the point (row 4, col 3), and with the comment text ending in `7 7`
instead it gives (row 7, col 7), while the line cut at its first `#` gives no
point. -/
theorem deadPixelList_long_comment :
    deadPixelList 100 100 longCommentFile ⟨0, 0, 0⟩ = [⟨4, 3⟩] ∧
    deadPixelList 100 100 longCommentFile2 ⟨0, 0, 0⟩ = [⟨7, 7⟩] ∧
    longCommentFile.takeWhile (fun c => c != '#') = [] ∧
    longCommentFile2.takeWhile (fun c => c != '#') = [] ∧
    specLine 100 100 longCommentFile.dropLast = [] := by
  decide

/-! ### Color matrix with no positive entry -/

/-- C16 fails on the code: the 3-channel matrix whose only non-zero entry is -1
has largest entry 0, so it is replaced by the identity although it is not the
zero matrix. -/
theorem ColorMatrix_negative_entry :
    camXYZ 3 negativeCamXYZ = [[0, 0, 0], [0, -1, 0], [0, 0, 0]] ∧
    ColorMatrix 3 negativeCamXYZ = some [[1, 0, 0], [0, 1, 0], [0, 0, 1]] ∧
    ColorMatrix 4 negativeCamXYZ = some [[0, 0, 0], [1, 0, 0], [0, 1, 0], [0, 0, 1]] := by
  have h3 : camXYZ 3 negativeCamXYZ = [[0, 0, 0], [0, -1, 0], [0, 0, 0]] := by
    simp [camXYZ, negativeCamXYZ, List.range, List.range.loop]
  have h4 : camXYZ 4 negativeCamXYZ = [[0, 0, 0], [0, -1, 0], [0, 0, 0], [0, 0, 0]] := by
    simp [camXYZ, negativeCamXYZ, List.range, List.range.loop]
  refine ⟨h3, ?_, ?_⟩
  · simp only [ColorMatrix, if_true, h3]
    norm_num [MaxEntry, identity3by3]
  · simp only [ColorMatrix, h4]
    norm_num [MaxEntry, default4by3]

/-- Helper: a running maximum is at least its start and every element. -/
theorem foldl_max_ge (xs : List ℚ) : ∀ a : ℚ,
    a ≤ xs.foldl max a ∧ ∀ x ∈ xs, x ≤ xs.foldl max a := by
  induction xs with
  | nil => intro a; simp
  | cons y ys ih =>
    intro a
    obtain ⟨h1, h2⟩ := ih (max a y)
    simp only [List.foldl_cons]
    refine ⟨le_trans (le_max_left a y) h1, ?_⟩
    intro x hx
    rcases List.mem_cons.mp hx with h | h
    · rw [h]; exact le_trans (le_max_right a y) h1
    · exact h2 x h

/-- Helper: `MaxEntry` is at least every entry. -/
theorem le_MaxEntry (m : List (List ℚ)) (x : ℚ) (hx : x ∈ m.flatten) : x ≤ MaxEntry m := by
  unfold MaxEntry
  cases hm : m.flatten with
  | nil => rw [hm] at hx; simp at hx
  | cons y ys =>
    rw [hm] at hx
    simp only
    rcases List.mem_cons.mp hx with h | h
    · rw [h]; exact (foldl_max_ge ys y).1
    · exact (foldl_max_ge ys y).2 x h

/-- A supplied camera matrix with a positive entry is kept entry for entry, for 3
and for 4 channels. -/
theorem ColorMatrix_positive_entry (cam_xyz : Nat → Nat → ℚ) :
    ((∃ i j, i < 3 ∧ j < 3 ∧ 0 < cam_xyz i j) →
      ColorMatrix 3 cam_xyz = some (camXYZ 3 cam_xyz)) ∧
    ((∃ i j, i < 4 ∧ j < 3 ∧ 0 < cam_xyz i j) →
      ColorMatrix 4 cam_xyz = some (camXYZ 4 cam_xyz)) := by
  have key : ∀ rows i j, i < rows → j < 3 → 0 < cam_xyz i j →
      MaxEntry (camXYZ rows cam_xyz) ≠ 0 := by
    intro rows i j hi hj hpos
    have hmem : cam_xyz i j ∈ (camXYZ rows cam_xyz).flatten := by
      simp only [camXYZ, List.mem_flatten, List.mem_map, List.mem_range]
      refine ⟨[cam_xyz i 0, cam_xyz i 1, cam_xyz i 2], ⟨i, hi, rfl⟩, ?_⟩
      interval_cases j <;> simp
    have := le_MaxEntry _ _ hmem
    intro h0
    rw [h0] at this
    exact absurd hpos (not_lt.mpr this)
  constructor
  · rintro ⟨i, j, hi, hj, hpos⟩
    simp only [ColorMatrix, if_true, if_neg (key 3 i j hi hj hpos)]
  · rintro ⟨i, j, hi, hj, hpos⟩
    simp [ColorMatrix, key 4 i j hi hj hpos]

/-! ### Active area and image bounds -/

/-- C17 fails on the code: for a FUJIFILM frame with `COLOR(0, 1) = 2` and
`COLOR(1, 0) = 1`, raw height 3000 and raw width 4000, the image bounds are
exchanged to 4000 rows by 3000 columns while the active area stays (0, 0, 3000,
4000): its right edge 4000 is beyond the image width 3000. -/
theorem ActiveArea_outside_fuji_bounds :
    fujiRotate90 "FUJIFILM".toList 2 1 = true ∧
    fBounds "FUJIFILM".toList 2 1 3000 4000 = ⟨0, 0, 4000, 3000⟩ ∧
    ActiveArea "FUJIFILM".toList 0x94949494 0 0 3000 4000 0 0 = ⟨0, 0, 3000, 4000⟩ ∧
    ¬ insideBounds (ActiveArea "FUJIFILM".toList 0x94949494 0 0 3000 4000 0 0)
      (fBounds "FUJIFILM".toList 2 1 3000 4000) := by
  decide

/-- When the frame is not stored rotated and no margins apply, the active area is
the image bounds themselves, hence inside them. -/
theorem ActiveArea_inside_plain_bounds (make : List Char) (COLOR_0_1 COLOR_1_0 : Int)
    (filters top_margin left_margin iheight iwidth m_bottom_margin m_right_margin : Nat)
    (hh : iheight < 65536) (hw : iwidth < 65536)
    (hrot : fujiRotate90 make COLOR_0_1 COLOR_1_0 = false)
    (hno : ¬ (cchars make = "Canon".toList ∧ filters ≠ 0)) :
    ActiveArea make filters top_margin left_margin iheight iwidth m_bottom_margin m_right_margin
      = fBounds make COLOR_0_1 COLOR_1_0 iheight iwidth ∧
    insideBounds
      (ActiveArea make filters top_margin left_margin iheight iwidth m_bottom_margin
        m_right_margin)
      (fBounds make COLOR_0_1 COLOR_1_0 iheight iwidth) := by
  have hb : fBounds make COLOR_0_1 COLOR_1_0 iheight iwidth = dng_rect.ofSize iheight iwidth := by
    simp [fBounds, hrot]
  rw [ActiveArea_full make filters top_margin left_margin iheight iwidth m_bottom_margin
    m_right_margin hno, hb]
  refine ⟨rfl, ?_⟩
  have h := ofSize_W_H iheight iwidth hh hw
  unfold insideBounds
  rw [h.1, h.2]
  simp [dng_rect.ofSize]

/-- The plain case at a concrete frame: vendor NIKON, 3000 rows, 4000 columns. -/
theorem ActiveArea_inside_plain_bounds_witness :
    ActiveArea "NIKON".toList 0xe1e1e1e1 0 0 3000 4000 0 0
      = fBounds "NIKON".toList 2 1 3000 4000 ∧
    insideBounds (ActiveArea "NIKON".toList 0xe1e1e1e1 0 0 3000 4000 0 0)
      (fBounds "NIKON".toList 2 1 3000 4000) :=
  ActiveArea_inside_plain_bounds "NIKON".toList 2 1 0xe1e1e1e1 0 0 3000 4000 0 0
    (by decide) (by decide) (by decide) (by decide)

/-- The positive-entry case at a concrete matrix: the 3 × 3 identity as input. -/
theorem ColorMatrix_positive_entry_witness :
    ColorMatrix 3 (fun i j => if i = j then 1 else 0)
      = some (camXYZ 3 (fun i j => if i = j then 1 else 0)) :=
  (ColorMatrix_positive_entry (fun i j => if i = j then 1 else 0)).1
    ⟨0, 0, by decide, by decide, by norm_num⟩

end DngConvert
